import Mathlib

/-!
# Block-indexed deque (`src/deque.h`)

A shallow embedding of `Deque<T>` and of its iterator.

* The free store is a `Heap`: every `new uint8_t[block_size_ * sizeof(T)]` returns a fresh
  block address, and a block is `block_size_` slots, each either raw storage (`none`) or a
  constructed element (`some v`).
* The block table `T** data_` is a function from table slot to block address.  A table is
  written only while it is being built (`set`, `expand`, `copy`), so a cursor that holds the
  table pointer is modelled as holding the table.
* `size_t` sums and products of the layout quantities are exact natural numbers (they are
  bounded by the number of allocated bytes); the decrements `--size_`, `--first_index_`,
  `first_index_ + size_ - 1` and the cursor arithmetic with an `int` wrap modulo `2 ^ 64`.
* A constructor call of the element type is represented by its outcome: `some v` when it
  builds `v`, `none` when it throws.  Element assignment `a = b` does not throw.  In the
  shifts of `insert` and `erase` and in `d[i] = v` it stores the contents of `b` in `a`, as it
  does for every element type when `a` is constructed and for a trivially copyable one when
  `a` is raw (the slot behind the window in `insert`).
* `copy` assigns to slots that never held an element: there the contents after `a = b` are a
  parameter of the model, `stores` for a trivially copyable element type and
  `constructs_nothing` for one whose assignment needs a constructed left operand.
-/

namespace DequeModel

/-! ## Memory -/

/-- The free store of blocks: `cell a o` is slot `o` of the block at address `a`, and every
address from `next` on is unallocated. -/
structure Heap (T : Type) where
  cell : Nat → Nat → Option T
  next : Nat

/-- The statement `new uint8_t[block_size_ * sizeof(T)]`: the fresh block's address and the heap
in which that block is raw storage. -/
def Heap.alloc {T : Type} (h : Heap T) : Nat × Heap T :=
  (h.next, { cell := fun a o => if a = h.next then none else h.cell a o, next := h.next + 1 })

/-- Store `x` in slot `o` of block `a`. -/
def Heap.write {T : Type} (h : Heap T) (a o : Nat) (x : Option T) : Heap T :=
  { cell := fun b p => if b = a ∧ p = o then x else h.cell b p, next := h.next }

/-- The heap before any allocation; address `0` is the null pointer. -/
def Heap.empty (T : Type) : Heap T :=
  { cell := fun _ _ => none, next := 1 }

/-- The constant `block_size_`. -/
def block_size_ : Nat := 32

/-- The constant `expansion_coefficient_`. -/
def expansion_coefficient_ : Nat := 3

/-- The number of values of a `size_t`. -/
def size_t_mod : Nat := 2 ^ 64

/-- The `size_t` value `x - 1`: it wraps at zero. -/
def dec (x : Nat) : Nat := if x = 0 then size_t_mod - 1 else x - 1

/-- Assignment `t[i] = a` into a block table. -/
def table_set (t : Nat → Nat) (i a : Nat) : Nat → Nat :=
  fun k => if k = i then a else t k

/-- The table returned by `new T*[n]` before it is filled. -/
def table_new : Nat → Nat := fun _ => 0

/-- The lvalue `data_[g / block_size_][g % block_size_]`, read. -/
def slot_read {T : Type} (h : Heap T) (data : Nat → Nat) (g : Nat) : Option T :=
  h.cell (data (g / block_size_)) (g % block_size_)

/-- The lvalue `data_[g / block_size_][g % block_size_]`, written. -/
def slot_write {T : Type} (h : Heap T) (data : Nat → Nat) (g : Nat) (x : Option T) : Heap T :=
  h.write (data (g / block_size_)) (g % block_size_) x

/-- The loop `for (size_t i = 0; i < n; ++i) t[i] = new uint8_t[...]` of `set`, `expand` and
`copy`. -/
def alloc_blocks {T : Type} (h : Heap T) (n : Nat) (t : Nat → Nat) : Heap T × (Nat → Nat) :=
  (List.range n).foldl
    (fun (acc : Heap T × (Nat → Nat)) i => ((acc.1.alloc).2, table_set acc.2 i (acc.1.alloc).1))
    (h, t)

/-! ## The container -/

/-- The data members of a `Deque<T>` object. -/
structure Deque where
  first_index_ : Nat
  number_of_blocks_ : Nat
  size_ : Nat
  data_ : Nat → Nat

/-- A machine state: the heap and the object `*this`. -/
structure State (T : Type) where
  heap : Heap T
  self : Deque

/-- How a call that may throw ends: it returns, or an exception leaves it; either way with the
state it leaves behind. -/
inductive Res (σ : Type) where
  | ret (s : σ) : Res σ
  | thrown (s : σ) : Res σ

/-- The state a call leaves behind. -/
def Res.state {σ : Type} : Res σ → σ
  | Res.ret s => s
  | Res.thrown s => s

/-- Whether the call returned normally. -/
def Res.returned {σ : Type} : Res σ → Bool
  | Res.ret _ => true
  | Res.thrown _ => false

/-- The helper `set()`: allocate the table and one block per table slot. -/
def set {T : Type} (h : Heap T) (d : Deque) : State T :=
  let r := alloc_blocks h d.number_of_blocks_ table_new
  { heap := r.1, self := { d with data_ := r.2 } }

/-- The default constructor `Deque()`. -/
def Deque_default {T : Type} (h : Heap T) : State T :=
  set h { first_index_ := 0, number_of_blocks_ := 1, size_ := 0, data_ := table_new }

/-- The member `size()`. -/
def size {T : Type} (s : State T) : Nat := s.self.size_

/-- The member `operator[](index)`: the contents of the slot the returned reference names. -/
def subscript {T : Type} (s : State T) (index : Nat) : Option T :=
  slot_read s.heap s.self.data_ (s.self.first_index_ + index)

/-- The result of the checked accessor. -/
inductive Access (T : Type) where
  | ok (x : Option T) : Access T
  | out_of_range : Access T

/-- The member `at(index)`, with the state it leaves. -/
def at_ {T : Type} (s : State T) (index : Nat) : Access T × State T :=
  if index ≥ s.self.size_ then (Access.out_of_range, s)
  else (Access.ok (slot_read s.heap s.self.data_ (s.self.first_index_ + index)), s)

/-- The helper `expand()`. -/
def expand {T : Type} (s : State T) : State T :=
  let new_number_of_blocks := expansion_coefficient_ * s.self.number_of_blocks_
  let r := alloc_blocks s.heap new_number_of_blocks table_new
  let j := s.self.number_of_blocks_
  let new_data := (List.range s.self.number_of_blocks_).foldl
    (fun t i => table_set t (j + i) (s.self.data_ i)) r.2
  { heap := r.1,
    self := { first_index_ := s.self.first_index_ + block_size_ * s.self.number_of_blocks_,
              number_of_blocks_ := new_number_of_blocks,
              size_ := s.self.size_,
              data_ := new_data } }

/-- The test `first_index_ + size_ == block_size_ * number_of_blocks_`. -/
def full_at_back (d : Deque) : Bool :=
  d.first_index_ + d.size_ == block_size_ * d.number_of_blocks_

/-- The member `push_back(value)`; `c` is the outcome of `T(value)`. -/
def push_back {T : Type} (s : State T) (c : Option T) : Res (State T) :=
  let s1 := if full_at_back s.self then expand s else s
  match c with
  | some v =>
    Res.ret { heap := slot_write s1.heap s1.self.data_ (s1.self.first_index_ + s1.self.size_) (some v),
              self := { s1.self with size_ := s1.self.size_ + 1 } }
  | none => Res.thrown s1

/-- The member `push_front(value)`; `c` is the outcome of `T(value)`. -/
def push_front {T : Type} (s : State T) (c : Option T) : Res (State T) :=
  let s1 := if s.self.first_index_ = 0 then expand s else s
  let d2 : Deque := { s1.self with first_index_ := dec s1.self.first_index_ }
  match c with
  | some v =>
    Res.ret { heap := slot_write s1.heap d2.data_ d2.first_index_ (some v),
              self := { d2 with size_ := d2.size_ + 1 } }
  | none => Res.thrown { heap := s1.heap, self := d2 }

/-- The member `pop_back()`. -/
def pop_back {T : Type} (s : State T) : State T :=
  { heap := slot_write s.heap s.self.data_ (dec (s.self.first_index_ + s.self.size_)) none,
    self := { s.self with size_ := dec s.self.size_ } }

/-- The member `pop_front()`. -/
def pop_front {T : Type} (s : State T) : State T :=
  { heap := slot_write s.heap s.self.data_ s.self.first_index_ none,
    self := { s.self with size_ := dec s.self.size_, first_index_ := s.self.first_index_ + 1 } }

/-! ## The cursor -/

/-- A C++ `int`. -/
structure CInt where
  val : Int
  lo : -(2 : Int) ^ 31 ≤ val
  hi : val < (2 : Int) ^ 31

/-- The data members of a `common_iterator`. -/
structure common_iterator where
  deque_ : Nat → Nat
  index_ : Nat

/-- The member `operator+=(int i)`: `index_ += i` in `size_t`. -/
def common_iterator.add_assign (it : common_iterator) (i : CInt) : common_iterator :=
  { it with index_ := (((it.index_ : Int) + i.val) % (size_t_mod : Int)).toNat }

/-- The member `operator+(int i)`. -/
def common_iterator.plus (it : common_iterator) (i : CInt) : common_iterator :=
  it.add_assign i

/-- The member `get_index()`. -/
def common_iterator.get_index (it : common_iterator) : Nat := it.index_

/-- The member `operator*()`: the contents of the slot the returned reference names. -/
def common_iterator.deref {T : Type} (h : Heap T) (it : common_iterator) : Option T :=
  h.cell (it.deque_ (it.index_ / block_size_)) (it.index_ % block_size_)

/-- The member `begin()`. -/
def begin {T : Type} (s : State T) : common_iterator :=
  { deque_ := s.self.data_, index_ := s.self.first_index_ }

/-- The member `end()`. -/
def end_ {T : Type} (s : State T) : common_iterator :=
  { deque_ := s.self.data_, index_ := s.self.first_index_ + size s }

/-! ## Insert, erase, copy -/

/-- The loop `for (size_t i = start; i > stop; --i) data_[i] = data_[i - 1]` of `insert`. -/
def insert_loop {T : Type} (data : Nat → Nat) (stop : Nat) : Nat → Heap T → Heap T
  | 0, h => h
  | i + 1, h =>
    if i + 1 > stop then insert_loop data stop i (slot_write h data (i + 1) (slot_read h data i))
    else h

/-- The member `insert(iter, value)`. -/
def insert {T : Type} (s : State T) (iter : common_iterator) (value : T) : State T :=
  let s1 := if full_at_back s.self then expand s else s
  let h2 := insert_loop s1.self.data_ iter.get_index (s1.self.first_index_ + s1.self.size_) s1.heap
  { heap := slot_write h2 s1.self.data_ iter.get_index (some value),
    self := { s1.self with size_ := s1.self.size_ + 1 } }

/-- The loop `for (size_t i = start; i < stop; ++i) data_[i] = data_[i + 1]` of `erase`. -/
def erase_loop {T : Type} (data : Nat → Nat) (start stop : Nat) (h : Heap T) : Heap T :=
  (List.range' start (stop - start)).foldl
    (fun h i => slot_write h data i (slot_read h data (i + 1))) h

/-- The member `erase(iter)`. -/
def erase {T : Type} (s : State T) (iter : common_iterator) : State T :=
  pop_back
    { heap := erase_loop s.self.data_ iter.get_index (dec (s.self.first_index_ + s.self.size_)) s.heap,
      self := s.self }

/-- What `T::operator=` leaves in a slot that holds no element, when `T` is trivially copyable:
the value assigned. -/
def stores {T : Type} : T → Option T := fun v => some v

/-- What `T::operator=` leaves in a slot that holds no element, when the assignment of `T` works
on a constructed left operand (as that of `std::string` does): no element, the call has no
defined result and nothing is constructed. -/
def constructs_nothing {T : Type} : T → Option T := fun _ => none

/-- The contents of the slot `a` after the assignment `a = b` of `copy`, a call of
`T::operator=` and not a placement new: a constructed `a` takes the contents of `b`; a raw `a`
holds what the element type leaves in storage that never held a `T`, `raw_assign v` for the
value `v` of `b`. -/
def assign_to {T : Type} (raw_assign : T → Option T) (a b : Option T) : Option T :=
  match a, b with
  | some _, _ => b
  | none, some v => raw_assign v
  | none, none => none

/-- The helper `copy(deque)`, which is the whole body of the copy constructor: `h` is the heap,
`src` the object copied from, and the result holds the object built. Every slot that its last
loop assigns to is a slot of a block fresh from `new uint8_t[...]`; `raw_assign` is what the
assignment of the element type leaves in such a slot. -/
def copy {T : Type} (raw_assign : T → Option T) (h : Heap T) (src : Deque) : State T :=
  let r := alloc_blocks h src.number_of_blocks_ table_new
  let h3 := (List.range' src.first_index_ src.size_).foldl
    (fun hh i => slot_write hh r.2 i
      (assign_to raw_assign (slot_read hh r.2 i) (slot_read hh src.data_ i))) r.1
  { heap := h3,
    self := { first_index_ := src.first_index_, number_of_blocks_ := src.number_of_blocks_,
              size_ := src.size_, data_ := r.2 } }

/-- The loop `for (size_t i = 0; i < size; ++i) { try { push_back(x); } catch (...) { pop_back();
throw; } }` of the count constructors, with `n` iterations left from iteration `i`; `x i` is the
outcome of evaluating the argument of `push_back` in iteration `i` and `c i` the outcome of the
copy construction inside `push_back`. -/
def fill_loop {T : Type} (x : Nat → Option T) (c : Nat → T → Option T) :
    Nat → Nat → State T → Res (State T)
  | 0, _, s => Res.ret s
  | n + 1, i, s =>
    match x i with
    | none => Res.thrown (pop_back s)
    | some v =>
      match push_back s (c i v) with
      | Res.ret s1 => fill_loop x c n (i + 1) s1
      | Res.thrown s1 => Res.thrown (pop_back s1)

/-- The first four statements of both count constructors. -/
def count_init {T : Type} (h : Heap T) (size : Nat) : State T :=
  set h { first_index_ := 0, number_of_blocks_ := size / block_size_ + 1, size_ := 0,
          data_ := table_new }

/-- The constructor `Deque(size)`: `t i` is the outcome of `T()` in iteration `i`, and `c i v` the
outcome of copy-constructing from `v` in iteration `i`. -/
def Deque_size {T : Type} (h : Heap T) (size : Nat) (t : Nat → Option T)
    (c : Nat → T → Option T) : Res (State T) :=
  fill_loop t c size 0 (count_init h size)

/-- The constructor `Deque(size, value)`: `c i v` is the outcome of copy-constructing from `v` in
iteration `i`. -/
def Deque_size_value {T : Type} (h : Heap T) (size : Nat) (value : T)
    (c : Nat → T → Option T) : Res (State T) :=
  fill_loop (fun _ => some value) c size 0 (count_init h size)

/-- A copy constructor that never throws. -/
def copies {T : Type} : Nat → T → Option T := fun _ v => some v

/-! ## Invariants and observations -/

/-- The representation invariant: at least one block, the window inside the table, every table
entry an allocated block, and no block twice in the table. -/
def Valid {T : Type} (s : State T) : Prop :=
  1 ≤ s.self.number_of_blocks_ ∧
  s.self.first_index_ + s.self.size_ ≤ block_size_ * s.self.number_of_blocks_ ∧
  (∀ i, i < s.self.number_of_blocks_ → s.self.data_ i < s.heap.next) ∧
  (∀ i, i < s.self.number_of_blocks_ → ∀ j, j < s.self.number_of_blocks_ →
    s.self.data_ i = s.self.data_ j → i = j)

/-- The logical sequence: what `operator[]` returns at `0`, ..., `size() - 1`. -/
def contents {T : Type} (s : State T) : List (Option T) :=
  (List.range (size s)).map (subscript s)

/-- The state in which `push_back` and `insert` store: the one `expand` leaves when the table
is full at the back, the given one otherwise. -/
def back_ready {T : Type} (s : State T) : State T :=
  if full_at_back s.self then expand s else s

/-- The state in which `push_front` stores, before the decrement. -/
def front_ready {T : Type} (s : State T) : State T :=
  if s.self.first_index_ = 0 then expand s else s


/-! ## Sequences of calls -/

/-- One call on a deque: a push (whose element construction succeeds) or a pop. -/
inductive Op (T : Type) where
  | push_back (v : T) : Op T
  | push_front (v : T) : Op T
  | pop_back : Op T
  | pop_front : Op T

/-- Whether the call is a pop. -/
def Op.is_pop {T : Type} : Op T → Bool
  | Op.pop_back => true
  | Op.pop_front => true
  | _ => false

/-- The call, made on the deque. -/
def Op.run {T : Type} (s : State T) : Op T → Res (State T)
  | Op.push_back v => DequeModel.push_back s (some v)
  | Op.push_front v => DequeModel.push_front s (some v)
  | Op.pop_back => Res.ret (DequeModel.pop_back s)
  | Op.pop_front => Res.ret (DequeModel.pop_front s)

/-- The calls, made one after the other until one throws. -/
def run_ops {T : Type} (s : State T) : List (Op T) → Res (State T)
  | [] => Res.ret s
  | op :: rest =>
    match op.run s with
    | Res.ret s1 => run_ops s1 rest
    | Res.thrown s1 => Res.thrown s1

/-- No pop of the sequence is made on an empty deque. -/
def no_pop_on_empty {T : Type} (s : State T) : List (Op T) → Bool
  | [] => true
  | op :: rest => (!op.is_pop || decide (0 < size s)) && no_pop_on_empty (op.run s).state rest

/-- The call, made on a list, in the words of the specification: `push_front` prepends,
`push_back` appends, `pop_front` and `pop_back` remove the first and the last element. -/
def Op.on_list {T : Type} (l : List T) : Op T → List T
  | Op.push_back v => l ++ [v]
  | Op.push_front v => v :: l
  | Op.pop_back => l.dropLast
  | Op.pop_front => l.tail

/-- The calls, made on a list. -/
def list_after {T : Type} (l : List T) (ops : List (Op T)) : List T :=
  ops.foldl Op.on_list l

/-- The number of pushes in a sequence of calls. -/
def pushes {T : Type} (ops : List (Op T)) : Nat := ops.countP (fun op => !op.is_pop)

/-- The number of pops in a sequence of calls. -/
def pops {T : Type} (ops : List (Op T)) : Nat := ops.countP (fun op => op.is_pop)

/-- The capacity in slots, `block_size_ * number_of_blocks_`, is a `size_t` value. -/
def Fits {T : Type} (s : State T) : Prop :=
  block_size_ * s.self.number_of_blocks_ < size_t_mod

instance {T : Type} (s : State T) : Decidable (Valid s) :=
  inferInstanceAs (Decidable
    (1 ≤ s.self.number_of_blocks_ ∧
     s.self.first_index_ + s.self.size_ ≤ block_size_ * s.self.number_of_blocks_ ∧
     (∀ i, i < s.self.number_of_blocks_ → s.self.data_ i < s.heap.next) ∧
     (∀ i, i < s.self.number_of_blocks_ → ∀ j, j < s.self.number_of_blocks_ →
       s.self.data_ i = s.self.data_ j → i = j)))

instance {T : Type} (s : State T) : Decidable (Fits s) :=
  inferInstanceAs (Decidable (block_size_ * s.self.number_of_blocks_ < size_t_mod))

/-- The `int` with a small non-negative value. -/
def CInt.ofNat (n : Nat) (h : n < 2 ^ 31) : CInt :=
  { val := (n : Int), lo := by omega, hi := by omega }

/-- The deque after `push_back(0)`, ..., `push_back(n - 1)` on a default-constructed one. -/
def pushed_back (n : Nat) : State Nat :=
  (run_ops (Deque_default (Heap.empty Nat)) ((List.range n).map Op.push_back)).state

/-! ## Mutations of a deque -/

/-- The statement `d[index] = value`. -/
def assign {T : Type} (s : State T) (index : Nat) (value : T) : State T :=
  { heap := slot_write s.heap s.self.data_ (s.self.first_index_ + index) (some value),
    self := s.self }

/-- One mutating call on a deque: a push (whose element construction succeeds), a pop,
`insert(begin() + k, v)`, `erase(begin() + k)` or `d[i] = v`. -/
inductive Mut (T : Type) where
  | push_back (v : T) : Mut T
  | push_front (v : T) : Mut T
  | pop_back : Mut T
  | pop_front : Mut T
  | insert (k : CInt) (v : T) : Mut T
  | erase (k : CInt) : Mut T
  | assign (i : Nat) (v : T) : Mut T

/-- The mutating call, made on the deque. -/
def Mut.run {T : Type} (s : State T) : Mut T → State T
  | Mut.push_back v => (DequeModel.push_back s (some v)).state
  | Mut.push_front v => (DequeModel.push_front s (some v)).state
  | Mut.pop_back => DequeModel.pop_back s
  | Mut.pop_front => DequeModel.pop_front s
  | Mut.insert k v => DequeModel.insert s ((begin s).plus k) v
  | Mut.erase k => DequeModel.erase s ((begin s).plus k)
  | Mut.assign i v => DequeModel.assign s i v

/-- The precondition of the mutating call: a pop needs an element, `insert` a position in
`[begin(), end()]`, `erase` and `d[i] = v` a position in `[begin(), end())`. -/
def Mut.pre {T : Type} (s : State T) : Mut T → Bool
  | Mut.push_back _ => true
  | Mut.push_front _ => true
  | Mut.pop_back => decide (0 < size s)
  | Mut.pop_front => decide (0 < size s)
  | Mut.insert k _ => decide (0 ≤ k.val) && decide (k.val ≤ (size s : Int))
  | Mut.erase k => decide (0 ≤ k.val) && decide (k.val < (size s : Int))
  | Mut.assign i _ => decide (i < size s)

/-- The mutating calls, made one after the other. -/
def run_muts {T : Type} (s : State T) : List (Mut T) → State T
  | [] => s
  | m :: rest => run_muts (m.run s) rest

/-- Every call of the sequence is made under its precondition. -/
def muts_pre {T : Type} (s : State T) : List (Mut T) → Bool
  | [] => true
  | m :: rest => m.pre s && muts_pre (m.run s) rest

/-- The deque is valid and every block of its table was allocated at address `m` or later. -/
def Owns {T : Type} (m : Nat) (s : State T) : Prop :=
  Valid s ∧ ∀ i, i < s.self.number_of_blocks_ → m ≤ s.self.data_ i

/-- A sequence of mutations of a deque of at least two elements: `push_front(9)`, `d[1] = 5`,
`insert(begin() + 1, 7)`, `erase(begin())`, `pop_back()`, `push_back(8)`, `pop_front()`. -/
def sample_muts : List (Mut Nat) :=
  [Mut.push_front 9, Mut.assign 1 5, Mut.insert (CInt.ofNat 1 (by decide)) 7,
   Mut.erase (CInt.ofNat 0 (by decide)), Mut.pop_back, Mut.push_back 8, Mut.pop_front]

/-- The number of slots of the table that hold a constructed element. -/
def live_slots {T : Type} (s : State T) : Nat :=
  ((List.range (block_size_ * s.self.number_of_blocks_)).filter
    (fun g => (slot_read s.heap s.self.data_ g).isSome)).length

/-- A copy constructor that throws in iteration `k` and in no other. -/
def throws_at {T : Type} (k : Nat) : Nat → T → Option T :=
  fun i v => if i = k then none else some v

/-! ## Cursor difference -/

/-- The conversion of a `size_t` value to `int`: the value modulo `2 ^ 32`, read as two's
complement. -/
def to_int (x : Nat) : CInt :=
  { val := if ((x % 2 ^ 32 : Nat) : Int) < 2 ^ 31 then ((x % 2 ^ 32 : Nat) : Int)
           else ((x % 2 ^ 32 : Nat) : Int) - 2 ^ 32,
    lo := by
      have h : x % 2 ^ 32 < 2 ^ 32 := Nat.mod_lt _ (by norm_num)
      split_ifs <;> omega,
    hi := by
      have h : x % 2 ^ 32 < 2 ^ 32 := Nat.mod_lt _ (by norm_num)
      split_ifs <;> omega }

/-- The member `operator-(common_iterator iter)`: `index_ - iter.index_` in `size_t`, returned
as `int`. -/
def common_iterator.minus (it iter : common_iterator) : CInt :=
  to_int ((((it.index_ : Int) - (iter.index_ : Int)) % (size_t_mod : Int)).toNat)

/-! ## The cost of growth -/

/-- The work of one `expand()` call on the object `d`: its first loop allocates
`expansion_coefficient_ * number_of_blocks_` blocks, its second loop copies `number_of_blocks_`
table entries. -/
def expand_work (d : Deque) : Nat :=
  expansion_coefficient_ * d.number_of_blocks_ + d.number_of_blocks_

/-- The work that the call spends in `expand()`. -/
def Op.growth_work {T : Type} (s : State T) : Op T → Nat
  | Op.push_back _ => if full_at_back s.self then expand_work s.self else 0
  | Op.push_front _ => if s.self.first_index_ = 0 then expand_work s.self else 0
  | Op.pop_back => 0
  | Op.pop_front => 0

/-- The work that the calls of a sequence spend in `expand()`, in total. -/
def growth_work {T : Type} (s : State T) : List (Op T) → Nat
  | [] => 0
  | op :: rest => op.growth_work s + growth_work (op.run s).state rest

/-- What the amortized count keeps true after `n` pushes with `w` units of growth work: the
layout inequality, a bound of the work by the table size, and bounds of the table size by the
pushes made and the room left at either end. -/
def Budget (d : Deque) (n w : Nat) : Prop :=
  1 ≤ d.number_of_blocks_ ∧
  d.first_index_ + d.size_ ≤ block_size_ * d.number_of_blocks_ ∧
  w + 2 ≤ 2 * d.number_of_blocks_ ∧
  16 * d.number_of_blocks_ ≤ 3 * n + 45 ∧
  16 * d.number_of_blocks_ ≤ n + d.first_index_ + 16 ∧
  d.first_index_ + d.size_ ≤ n + 16 * d.number_of_blocks_ + 16

/-! ## Copy assignment -/

/-- The helper `swap(deque)` on the data members of `*this` and of `deque`: the members of
`*this` and then those of `deque`, after the exchange. -/
def swap (this other : Deque) : Deque × Deque :=
  ({ first_index_ := other.first_index_, number_of_blocks_ := other.number_of_blocks_,
     size_ := other.size_, data_ := other.data_ },
   { first_index_ := this.first_index_, number_of_blocks_ := this.number_of_blocks_,
     size_ := this.size_, data_ := this.data_ })

/-- The helper `clear()`, which is the body of the destructor: every element of the window is
destroyed; the `delete[]` of the blocks and of the table leaves no trace in the heap, where a
freed address is never handed out again. -/
def clear {T : Type} (h : Heap T) (d : Deque) : Heap T :=
  (List.range' d.first_index_ d.size_).foldl (fun hh i => slot_write hh d.data_ i none) h

/-- The member `operator=(deque)`: `other` is copy-constructed from `deque`, `*this` exchanges
its members with `other`, and `other` is destroyed at the end of the body; `raw_assign` is as in
`copy`. -/
def copy_assign {T : Type} (raw_assign : T → Option T) (s : State T) (deque : Deque) :
    State T :=
  let other := copy raw_assign s.heap deque
  let sw := swap s.self other.self
  { heap := clear other.heap sw.2, self := sw.1 }

/-- The layout inequality `first_index_ + size_ <= block_size_ * number_of_blocks_`, with at
least one block. -/
def Layout (d : Deque) : Prop :=
  1 ≤ d.number_of_blocks_ ∧ d.first_index_ + d.size_ ≤ block_size_ * d.number_of_blocks_

instance (d : Deque) : Decidable (Layout d) :=
  inferInstanceAs (Decidable
    (1 ≤ d.number_of_blocks_ ∧ d.first_index_ + d.size_ ≤ block_size_ * d.number_of_blocks_))

/-! ## The stores of the pushes -/

/-- The statements `new (data_[...] + ...) T(value); ++size_;` of `push_back`, whose
construction succeeds, on the state `s`: the slot written is `first_index_ + size_`. -/
def store_back {T : Type} (s : State T) (v : T) : State T :=
  { heap := slot_write s.heap s.self.data_ (s.self.first_index_ + s.self.size_) (some v),
    self := { s.self with size_ := s.self.size_ + 1 } }

/-- The statements `--first_index_; new (data_[...] + ...) T(value); ++size_;` of `push_front`,
whose construction succeeds, on the state `s`: the slot written is the decremented
`first_index_`. -/
def store_front {T : Type} (s : State T) (v : T) : State T :=
  { heap := slot_write s.heap s.self.data_ (dec s.self.first_index_) (some v),
    self := { first_index_ := dec s.self.first_index_,
              number_of_blocks_ := s.self.number_of_blocks_,
              size_ := s.self.size_ + 1,
              data_ := s.self.data_ } }

/-! ## Constructed slots -/

/-- Inside the capacity of the table, the slots that hold a constructed element are exactly
those of the window `[first_index_, first_index_ + size_)`. -/
def Live {T : Type} (s : State T) : Prop :=
  ∀ g, g < block_size_ * s.self.number_of_blocks_ →
    ((slot_read s.heap s.self.data_ g).isSome = true ↔
      (s.self.first_index_ ≤ g ∧ g < s.self.first_index_ + s.self.size_))

instance {T : Type} (s : State T) : Decidable (Live s) :=
  inferInstanceAs (Decidable
    (∀ g, g < block_size_ * s.self.number_of_blocks_ →
      ((slot_read s.heap s.self.data_ g).isSome = true ↔
        (s.self.first_index_ ≤ g ∧ g < s.self.first_index_ + s.self.size_))))

/-! ## Alternating pushes and pops -/

/-- The calls `push_back(v); pop_front();`, `m` times over. -/
def alternating {T : Type} (v : T) : Nat → List (Op T)
  | 0 => []
  | m + 1 => Op.push_back v :: Op.pop_front :: alternating v m

/-- Before every call of the sequence and after the last one, `size()` is at most `b`. -/
def size_at_most {T : Type} (b : Nat) (s : State T) : List (Op T) → Bool
  | [] => decide (size s ≤ b)
  | op :: rest => decide (size s ≤ b) && size_at_most b (op.run s).state rest

/-- The state after `push_back(v); pop_front();`. -/
def one_cycle {T : Type} (v : T) (s : State T) : State T :=
  pop_front (push_back s (some v)).state
/-! ## Allocation and table lemmas -/

theorem alloc_blocks_succ {T : Type} (h : Heap T) (n : Nat) (t : Nat → Nat) :
    alloc_blocks h (n + 1) t =
      (((alloc_blocks h n t).1.alloc).2,
        table_set (alloc_blocks h n t).2 n ((alloc_blocks h n t).1.alloc).1) := by
  simp [alloc_blocks, List.range_succ, List.foldl_append]

theorem alloc_blocks_next {T : Type} (h : Heap T) (n : Nat) (t : Nat → Nat) :
    (alloc_blocks h n t).1.next = h.next + n := by
  induction n with
  | zero => simp [alloc_blocks]
  | succ n ih => rw [alloc_blocks_succ]; simp only [Heap.alloc]; omega

theorem alloc_blocks_table {T : Type} (h : Heap T) (n : Nat) (t : Nat → Nat) (i : Nat) :
    (alloc_blocks h n t).2 i = if i < n then h.next + i else t i := by
  induction n with
  | zero => simp [alloc_blocks]
  | succ n ih =>
    rw [alloc_blocks_succ]
    simp only [table_set, Heap.alloc, alloc_blocks_next, ih]
    split_ifs <;> first | rfl | omega

theorem alloc_blocks_cell {T : Type} (h : Heap T) (n : Nat) (t : Nat → Nat) (a o : Nat) :
    (alloc_blocks h n t).1.cell a o =
      if h.next ≤ a ∧ a < h.next + n then none else h.cell a o := by
  induction n with
  | zero =>
    simp only [alloc_blocks, List.range_zero, List.foldl_nil]
    rw [if_neg (by omega)]
  | succ n ih =>
    rw [alloc_blocks_succ]
    simp only [Heap.alloc, alloc_blocks_next, ih]
    by_cases c1 : a = h.next + n
    · rw [if_pos c1, if_pos (by omega)]
    · rw [if_neg c1]
      by_cases c2 : h.next ≤ a ∧ a < h.next + n
      · rw [if_pos c2, if_pos (by omega)]
      · rw [if_neg c2, if_neg (by omega)]

theorem move_blocks_apply (j m : Nat) (f t0 : Nat → Nat) (k : Nat) :
    ((List.range m).foldl (fun t i => table_set t (j + i) (f i)) t0) k =
      if j ≤ k ∧ k < j + m then f (k - j) else t0 k := by
  induction m with
  | zero =>
    simp only [List.range_zero, List.foldl_nil]
    rw [if_neg (by omega)]
  | succ m ih =>
    simp only [List.range_succ, List.foldl_append, List.foldl_cons, List.foldl_nil, table_set, ih]
    by_cases c1 : k = j + m
    · rw [if_pos c1, if_pos (by omega)]
      congr 1; omega
    · rw [if_neg c1]
      by_cases c2 : j ≤ k ∧ k < j + m
      · rw [if_pos c2, if_pos (by omega)]
      · rw [if_neg c2, if_neg (by omega)]

/-! ## What `expand` does -/

theorem expand_number_of_blocks {T : Type} (s : State T) :
    (expand s).self.number_of_blocks_ = 3 * s.self.number_of_blocks_ := rfl

theorem expand_first_index {T : Type} (s : State T) :
    (expand s).self.first_index_ = s.self.first_index_ + block_size_ * s.self.number_of_blocks_ :=
  rfl

theorem expand_size {T : Type} (s : State T) : (expand s).self.size_ = s.self.size_ := rfl

theorem expand_next {T : Type} (s : State T) :
    (expand s).heap.next = s.heap.next + 3 * s.self.number_of_blocks_ := by
  simp [expand, alloc_blocks_next, expansion_coefficient_]

theorem expand_data {T : Type} (s : State T) (k : Nat) :
    (expand s).self.data_ k =
      if s.self.number_of_blocks_ ≤ k ∧ k < s.self.number_of_blocks_ + s.self.number_of_blocks_
      then s.self.data_ (k - s.self.number_of_blocks_)
      else if k < 3 * s.self.number_of_blocks_ then s.heap.next + k else 0 := by
  simp [expand, move_blocks_apply, alloc_blocks_table, expansion_coefficient_, table_new]

theorem expand_data_mid {T : Type} (s : State T) (k : Nat) (h1 : s.self.number_of_blocks_ ≤ k)
    (h2 : k < 2 * s.self.number_of_blocks_) :
    (expand s).self.data_ k = s.self.data_ (k - s.self.number_of_blocks_) := by
  rw [expand_data, if_pos (by omega)]

theorem expand_data_outer {T : Type} (s : State T) (k : Nat)
    (h1 : k < s.self.number_of_blocks_ ∨ 2 * s.self.number_of_blocks_ ≤ k)
    (h2 : k < 3 * s.self.number_of_blocks_) :
    (expand s).self.data_ k = s.heap.next + k := by
  rw [expand_data, if_neg (by omega), if_pos h2]

theorem expand_cell {T : Type} (s : State T) (a o : Nat) :
    (expand s).heap.cell a o =
      if s.heap.next ≤ a ∧ a < s.heap.next + 3 * s.self.number_of_blocks_ then none
      else s.heap.cell a o := by
  simp [expand, alloc_blocks_cell, expansion_coefficient_]

theorem expand_valid {T : Type} (s : State T) (hv : Valid s) : Valid (expand s) := by
  obtain ⟨h1, h2, h3, h4⟩ := hv
  refine ⟨?_, ?_, ?_, ?_⟩
  · rw [expand_number_of_blocks]; omega
  · rw [expand_number_of_blocks, expand_first_index, expand_size]
    simp only [block_size_] at *; omega
  · intro i hi
    rw [expand_number_of_blocks] at hi
    rw [expand_next]
    by_cases c : s.self.number_of_blocks_ ≤ i ∧ i < 2 * s.self.number_of_blocks_
    · rw [expand_data_mid s i c.1 c.2]
      have := h3 (i - s.self.number_of_blocks_) (by omega); omega
    · rw [expand_data_outer s i (by omega) hi]; omega
  · intro i hi j hj e
    rw [expand_number_of_blocks] at hi hj
    by_cases c : s.self.number_of_blocks_ ≤ i ∧ i < 2 * s.self.number_of_blocks_
    · rw [expand_data_mid s i c.1 c.2] at e
      have hi3 := h3 (i - s.self.number_of_blocks_) (by omega)
      by_cases c2 : s.self.number_of_blocks_ ≤ j ∧ j < 2 * s.self.number_of_blocks_
      · rw [expand_data_mid s j c2.1 c2.2] at e
        have := h4 _ (by omega) _ (by omega) e
        omega
      · rw [expand_data_outer s j (by omega) hj] at e; omega
    · rw [expand_data_outer s i (by omega) hi] at e
      by_cases c2 : s.self.number_of_blocks_ ≤ j ∧ j < 2 * s.self.number_of_blocks_
      · rw [expand_data_mid s j c2.1 c2.2] at e
        have hj3 := h3 (j - s.self.number_of_blocks_) (by omega)
        omega
      · rw [expand_data_outer s j (by omega) hj] at e; omega

theorem expand_slot_read {T : Type} (s : State T) (hv : Valid s) (g : Nat)
    (hg : g < block_size_ * s.self.number_of_blocks_) :
    slot_read (expand s).heap (expand s).self.data_ (g + block_size_ * s.self.number_of_blocks_) =
      slot_read s.heap s.self.data_ g := by
  obtain ⟨h1, h2, h3, h4⟩ := hv
  simp only [block_size_] at hg
  have hd : (g + 32 * s.self.number_of_blocks_) / 32 = g / 32 + s.self.number_of_blocks_ := by
    omega
  have hm : (g + 32 * s.self.number_of_blocks_) % 32 = g % 32 := by omega
  have ha := h3 (g / 32) (by omega)
  simp only [slot_read, block_size_]
  rw [hd, hm, expand_data_mid s _ (by omega) (by omega), expand_cell, if_neg]
  · congr 2; omega
  · have e : g / 32 + s.self.number_of_blocks_ - s.self.number_of_blocks_ = g / 32 := by omega
    rw [e]; omega

theorem expand_subscript {T : Type} (s : State T) (hv : Valid s) (i : Nat)
    (hi : s.self.first_index_ + i < block_size_ * s.self.number_of_blocks_) :
    subscript (expand s) i = subscript s i := by
  have := expand_slot_read s hv (s.self.first_index_ + i) hi
  simp only [subscript, expand_first_index]
  rw [← this]
  congr 1
  omega

/-! ## Reading and writing slots -/

theorem slot_read_write {T : Type} (h : Heap T) (data : Nat → Nat) (nb : Nat)
    (hinj : ∀ i, i < nb → ∀ j, j < nb → data i = data j → i = j)
    (g g2 : Nat) (hg : g < block_size_ * nb) (hg2 : g2 < block_size_ * nb) (x : Option T) :
    slot_read (slot_write h data g x) data g2 = if g2 = g then x else slot_read h data g2 := by
  simp only [block_size_] at hg hg2
  simp only [slot_read, slot_write, Heap.write, block_size_]
  by_cases c : g2 = g
  · subst c
    rw [if_pos ⟨rfl, rfl⟩, if_pos rfl]
  · rw [if_neg c, if_neg]
    rintro ⟨e1, e2⟩
    have := hinj (g2 / 32) (by omega) (g / 32) (by omega) e1
    omega

theorem slot_read_write_same {T : Type} (h : Heap T) (data : Nat → Nat) (g : Nat)
    (x : Option T) : slot_read (slot_write h data g x) data g = x := by
  simp [slot_read, slot_write, Heap.write]

theorem dec_pos (x : Nat) (h : 0 < x) : dec x = x - 1 := by
  unfold dec
  rw [if_neg (by omega)]

theorem full_at_back_iff (d : Deque) :
    full_at_back d = true ↔ d.first_index_ + d.size_ = block_size_ * d.number_of_blocks_ := by
  simp [full_at_back]

theorem back_ready_spec {T : Type} (s : State T) (hv : Valid s) :
    Valid (back_ready s) ∧
    (back_ready s).self.first_index_ + (back_ready s).self.size_ <
      block_size_ * (back_ready s).self.number_of_blocks_ ∧
    (back_ready s).self.size_ = s.self.size_ ∧
    (∀ i, s.self.first_index_ + i < block_size_ * s.self.number_of_blocks_ →
      subscript (back_ready s) i = subscript s i) := by
  unfold back_ready
  by_cases c : full_at_back s.self = true
  · rw [if_pos c]
    rw [full_at_back_iff] at c
    refine ⟨expand_valid s hv, ?_, rfl, fun i hi => expand_subscript s hv i hi⟩
    rw [expand_first_index, expand_size, expand_number_of_blocks]
    have := hv.1
    simp only [block_size_] at *
    omega
  · rw [if_neg c]
    rw [full_at_back_iff] at c
    refine ⟨hv, ?_, rfl, fun i _ => rfl⟩
    have := hv.2.1
    omega

theorem front_ready_spec {T : Type} (s : State T) (hv : Valid s) :
    Valid (front_ready s) ∧ 0 < (front_ready s).self.first_index_ ∧
    (front_ready s).self.size_ = s.self.size_ ∧
    (∀ i, s.self.first_index_ + i < block_size_ * s.self.number_of_blocks_ →
      subscript (front_ready s) i = subscript s i) := by
  unfold front_ready
  by_cases c : s.self.first_index_ = 0
  · rw [if_pos c]
    refine ⟨expand_valid s hv, ?_, rfl, fun i hi => expand_subscript s hv i hi⟩
    rw [expand_first_index]
    have := hv.1
    simp only [block_size_]
    omega
  · rw [if_neg c]
    exact ⟨hv, by omega, rfl, fun i _ => rfl⟩

theorem push_back_some {T : Type} (s : State T) (v : T) :
    push_back s (some v) =
      Res.ret { heap := slot_write (back_ready s).heap (back_ready s).self.data_
                  ((back_ready s).self.first_index_ + (back_ready s).self.size_) (some v),
                self := { (back_ready s).self with size_ := (back_ready s).self.size_ + 1 } } :=
  rfl

theorem push_back_none {T : Type} (s : State T) :
    push_back s (none : Option T) = Res.thrown (back_ready s) := rfl

theorem push_front_some {T : Type} (s : State T) (v : T) :
    push_front s (some v) =
      Res.ret { heap := slot_write (front_ready s).heap (front_ready s).self.data_
                  (dec (front_ready s).self.first_index_) (some v),
                self := { first_index_ := dec (front_ready s).self.first_index_,
                          number_of_blocks_ := (front_ready s).self.number_of_blocks_,
                          size_ := (front_ready s).self.size_ + 1,
                          data_ := (front_ready s).self.data_ } } :=
  rfl

theorem push_front_none {T : Type} (s : State T) :
    push_front s (none : Option T) =
      Res.thrown { heap := (front_ready s).heap,
                   self := { (front_ready s).self with
                     first_index_ := dec (front_ready s).self.first_index_ } } :=
  rfl

/-- Storing one more element behind the window of a state with room at the back. -/
theorem store_back_spec {T : Type} (s : State T) (hv : Valid s)
    (hroom : s.self.first_index_ + s.self.size_ < block_size_ * s.self.number_of_blocks_)
    (x : Option T) (s2 : State T)
    (hs2 : s2 = { heap := slot_write s.heap s.self.data_ (s.self.first_index_ + s.self.size_) x,
                  self := { s.self with size_ := s.self.size_ + 1 } }) :
    Valid s2 ∧ s2.self.size_ = s.self.size_ + 1 ∧
    s2.self.first_index_ = s.self.first_index_ ∧
    s2.self.number_of_blocks_ = s.self.number_of_blocks_ ∧
    (∀ i, i < s.self.size_ → subscript s2 i = subscript s i) ∧
    subscript s2 s.self.size_ = x := by
  subst hs2
  obtain ⟨h1, h2, h3, h4⟩ := hv
  refine ⟨⟨h1, ?_, h3, h4⟩, rfl, rfl, rfl, ?_, ?_⟩
  · dsimp only; omega
  · intro i hi
    dsimp only [subscript]
    rw [slot_read_write _ _ _ h4 _ _ hroom (by omega), if_neg (by omega)]
  · dsimp only [subscript]
    rw [slot_read_write_same]

/-- Storing one more element in front of the window of a state with room at the front. -/
theorem store_front_spec {T : Type} (s : State T) (hv : Valid s)
    (hroom : 0 < s.self.first_index_) (x : Option T) (s2 : State T)
    (hs2 : s2 = { heap := slot_write s.heap s.self.data_ (dec s.self.first_index_) x,
                  self := { first_index_ := dec s.self.first_index_,
                            number_of_blocks_ := s.self.number_of_blocks_,
                            size_ := s.self.size_ + 1,
                            data_ := s.self.data_ } }) :
    Valid s2 ∧ s2.self.size_ = s.self.size_ + 1 ∧
    s2.self.first_index_ + 1 = s.self.first_index_ ∧
    s2.self.number_of_blocks_ = s.self.number_of_blocks_ ∧
    (∀ i, i < s.self.size_ → subscript s2 (i + 1) = subscript s i) ∧
    subscript s2 0 = x := by
  subst hs2
  obtain ⟨h1, h2, h3, h4⟩ := hv
  have hd := dec_pos _ hroom
  refine ⟨⟨h1, ?_, h3, h4⟩, rfl, ?_, rfl, ?_, ?_⟩
  · dsimp only; omega
  · dsimp only; omega
  · intro i hi
    dsimp only [subscript]
    rw [slot_read_write _ _ _ h4 _ _ (by omega) (by omega), if_neg (by omega)]
    congr 1
    omega
  · dsimp only [subscript]
    rw [Nat.add_zero, slot_read_write_same]

theorem pop_back_spec {T : Type} (s : State T) (hv : Valid s) (hne : 0 < s.self.size_) :
    Valid (pop_back s) ∧ (pop_back s).self.size_ + 1 = s.self.size_ ∧
    (pop_back s).self.first_index_ = s.self.first_index_ ∧
    (pop_back s).self.number_of_blocks_ = s.self.number_of_blocks_ ∧
    (∀ i, i + 1 < s.self.size_ → subscript (pop_back s) i = subscript s i) := by
  obtain ⟨h1, h2, h3, h4⟩ := hv
  have hd := dec_pos _ hne
  have hd2 := dec_pos (s.self.first_index_ + s.self.size_) (by omega)
  refine ⟨⟨h1, ?_, h3, h4⟩, ?_, rfl, rfl, ?_⟩
  · dsimp only [pop_back]; omega
  · dsimp only [pop_back]; omega
  · intro i hi
    dsimp only [subscript, pop_back]
    rw [slot_read_write _ _ _ h4 _ _ (by omega) (by omega), if_neg (by omega)]

theorem pop_front_spec {T : Type} (s : State T) (hv : Valid s) (hne : 0 < s.self.size_) :
    Valid (pop_front s) ∧ (pop_front s).self.size_ + 1 = s.self.size_ ∧
    (pop_front s).self.first_index_ = s.self.first_index_ + 1 ∧
    (pop_front s).self.number_of_blocks_ = s.self.number_of_blocks_ ∧
    (∀ i, i + 1 < s.self.size_ → subscript (pop_front s) i = subscript s (i + 1)) := by
  obtain ⟨h1, h2, h3, h4⟩ := hv
  have hd := dec_pos _ hne
  refine ⟨⟨h1, ?_, h3, h4⟩, ?_, rfl, rfl, ?_⟩
  · dsimp only [pop_front]; omega
  · dsimp only [pop_front]; omega
  · intro i hi
    dsimp only [subscript, pop_front]
    rw [slot_read_write _ _ _ h4 _ _ (by omega) (by omega), if_neg (by omega)]
    congr 1
    omega

/-! ## The logical sequence -/

theorem map_range_congr {α : Type} (f g : Nat → α) (n : Nat) (h : ∀ i, i < n → f i = g i) :
    (List.range n).map f = (List.range n).map g :=
  List.map_congr_left (fun i hi => h i (List.mem_range.mp hi))

theorem contents_length {T : Type} (s : State T) : (contents s).length = size s := by
  simp [contents]

theorem contents_getElem? {T : Type} (s : State T) (i : Nat) (hi : i < size s) :
    (contents s)[i]? = some (subscript s i) := by
  simp [contents, List.getElem?_range hi]

/-- A state whose window is one longer at the back. -/
theorem contents_snoc {T : Type} (s s2 : State T) (x : Option T)
    (hsz : s2.self.size_ = s.self.size_ + 1)
    (hold : ∀ i, i < s.self.size_ → subscript s2 i = subscript s i)
    (hnew : subscript s2 s.self.size_ = x) :
    contents s2 = contents s ++ [x] := by
  simp only [contents, size, hsz, List.range_succ, List.map_append, List.map_cons, List.map_nil,
    hnew]
  rw [map_range_congr _ _ _ hold]

/-- A state whose window is one longer at the front. -/
theorem contents_cons {T : Type} (s s2 : State T) (x : Option T)
    (hsz : s2.self.size_ = s.self.size_ + 1)
    (hold : ∀ i, i < s.self.size_ → subscript s2 (i + 1) = subscript s i)
    (hnew : subscript s2 0 = x) :
    contents s2 = x :: contents s := by
  simp only [contents, size, hsz, List.range_succ_eq_map, List.map_cons, List.map_map, hnew]
  congr 1
  exact List.map_congr_left (fun i hi => hold i (List.mem_range.mp hi))

/-- A state whose window is one shorter at the back. -/
theorem contents_dropLast {T : Type} (s s2 : State T)
    (hsz : s2.self.size_ + 1 = s.self.size_)
    (hold : ∀ i, i + 1 < s.self.size_ → subscript s2 i = subscript s i) :
    contents s2 = (contents s).dropLast := by
  simp only [contents, size, ← hsz, List.range_succ, List.map_append, List.map_cons,
    List.map_nil, List.dropLast_concat]
  exact map_range_congr _ _ _ (fun i hi => hold i (by omega))

/-- A state whose window is one shorter at the front. -/
theorem contents_tail {T : Type} (s s2 : State T)
    (hsz : s2.self.size_ + 1 = s.self.size_)
    (hold : ∀ i, i + 1 < s.self.size_ → subscript s2 i = subscript s (i + 1)) :
    contents s2 = (contents s).tail := by
  simp only [contents, size, ← hsz, List.range_succ_eq_map, List.map_cons, List.map_map,
    List.tail_cons]
  exact List.map_congr_left (fun i hi => hold i (by have := List.mem_range.mp hi; omega))

/-! ## Pushes and pops on the logical sequence -/

theorem push_back_refines {T : Type} (s : State T) (hv : Valid s) (v : T) :
    ∃ s2, push_back s (some v) = Res.ret s2 ∧ Valid s2 ∧
      s2.self.size_ = s.self.size_ + 1 ∧ contents s2 = contents s ++ [some v] := by
  obtain ⟨b1, b2, b3, b4⟩ := back_ready_spec s hv
  obtain ⟨c1, c2, _, _, c5, c6⟩ := store_back_spec (back_ready s) b1 b2 (some v) _ rfl
  refine ⟨_, push_back_some s v, c1, by rw [c2, b3], ?_⟩
  have hwin := hv.2.1
  have e : contents (back_ready s) = contents s := by
    simp only [contents, size, b3]
    exact map_range_congr _ _ _ (fun i hi => b4 i (by omega))
  rw [← e]
  exact contents_snoc _ _ _ c2 c5 c6

theorem push_front_refines {T : Type} (s : State T) (hv : Valid s) (v : T) :
    ∃ s2, push_front s (some v) = Res.ret s2 ∧ Valid s2 ∧
      s2.self.size_ = s.self.size_ + 1 ∧ contents s2 = some v :: contents s := by
  obtain ⟨b1, b2, b3, b4⟩ := front_ready_spec s hv
  obtain ⟨c1, c2, _, _, c5, c6⟩ := store_front_spec (front_ready s) b1 b2 (some v) _ rfl
  refine ⟨_, push_front_some s v, c1, by rw [c2, b3], ?_⟩
  have hwin := hv.2.1
  have e : contents (front_ready s) = contents s := by
    simp only [contents, size, b3]
    exact map_range_congr _ _ _ (fun i hi => b4 i (by omega))
  rw [← e]
  exact contents_cons _ _ _ c2 c5 c6

theorem pop_back_refines {T : Type} (s : State T) (hv : Valid s) (hne : 0 < s.self.size_) :
    Valid (pop_back s) ∧ (pop_back s).self.size_ + 1 = s.self.size_ ∧
      contents (pop_back s) = (contents s).dropLast := by
  obtain ⟨c1, c2, _, _, c5⟩ := pop_back_spec s hv hne
  exact ⟨c1, c2, contents_dropLast _ _ c2 c5⟩

theorem pop_front_refines {T : Type} (s : State T) (hv : Valid s) (hne : 0 < s.self.size_) :
    Valid (pop_front s) ∧ (pop_front s).self.size_ + 1 = s.self.size_ ∧
      contents (pop_front s) = (contents s).tail := by
  obtain ⟨c1, c2, _, _, c5⟩ := pop_front_spec s hv hne
  exact ⟨c1, c2, contents_tail _ _ c2 c5⟩

/-! ## Constructors establish the invariant -/

theorem set_data {T : Type} (h : Heap T) (d : Deque) (i : Nat) :
    (set h d).self.data_ i = if i < d.number_of_blocks_ then h.next + i else 0 := by
  simp [set, alloc_blocks_table, table_new]

theorem set_next {T : Type} (h : Heap T) (d : Deque) :
    (set h d).heap.next = h.next + d.number_of_blocks_ := by
  simp [set, alloc_blocks_next]

theorem set_cell {T : Type} (h : Heap T) (d : Deque) (a o : Nat) :
    (set h d).heap.cell a o =
      if h.next ≤ a ∧ a < h.next + d.number_of_blocks_ then none else h.cell a o := by
  simp [set, alloc_blocks_cell]

theorem set_valid {T : Type} (h : Heap T) (d : Deque) (h1 : 1 ≤ d.number_of_blocks_)
    (h2 : d.first_index_ + d.size_ ≤ block_size_ * d.number_of_blocks_) :
    Valid (set h d) := by
  refine ⟨h1, h2, ?_, ?_⟩
  · intro i hi
    have hi2 : i < d.number_of_blocks_ := hi
    rw [set_data, set_next, if_pos hi2]
    omega
  · intro i hi j hj e
    have hi2 : i < d.number_of_blocks_ := hi
    have hj2 : j < d.number_of_blocks_ := hj
    rw [set_data, set_data, if_pos hi2, if_pos hj2] at e
    omega

theorem Deque_default_valid {T : Type} (h : Heap T) : Valid (Deque_default h) :=
  set_valid h _ (Nat.le_refl 1) (by simp [block_size_])

theorem Deque_default_size {T : Type} (h : Heap T) : (Deque_default h).self.size_ = 0 := rfl

theorem Deque_default_contents {T : Type} (h : Heap T) : contents (Deque_default h) = [] := by
  simp [contents, size, Deque_default_size]

theorem count_init_valid {T : Type} (h : Heap T) (n : Nat) : Valid (count_init h n) :=
  set_valid h _ (by simp) (by simp)

/-! ## Sequences of pushes and pops -/

theorem run_ops_refines {T : Type} (ops : List (Op T)) :
    ∀ (s : State T) (l : List T), Valid s → contents s = l.map some →
      no_pop_on_empty s ops = true →
      ∃ s2, run_ops s ops = Res.ret s2 ∧ Valid s2 ∧
        contents s2 = (list_after l ops).map some ∧
        s2.self.size_ + pops ops = s.self.size_ + pushes ops := by
  induction ops with
  | nil =>
    intro s l hv hc _
    exact ⟨s, rfl, hv, hc, rfl⟩
  | cons op rest ih =>
    intro s l hv hc hl
    simp only [no_pop_on_empty, Bool.and_eq_true, Bool.or_eq_true, Bool.not_eq_true',
      decide_eq_true_eq] at hl
    obtain ⟨hl1, hl2⟩ := hl
    cases op with
    | push_back v =>
      obtain ⟨s1, e1, v1, z1, c1⟩ := push_back_refines s hv v
      have hl3 : no_pop_on_empty s1 rest = true := by
        simpa [Op.run, e1, Res.state] using hl2
      obtain ⟨s2, e2, v2, c2, z2⟩ :=
        ih s1 (l ++ [v]) v1 (by rw [c1, hc]; simp) hl3
      refine ⟨s2, ?_, v2, ?_, ?_⟩
      · simp only [run_ops, Op.run, e1]; exact e2
      · simpa [list_after, Op.on_list] using c2
      · simp only [pops, pushes, List.countP_cons, Op.is_pop] at z2 ⊢
        simp only [Bool.false_eq_true, if_false, Bool.not_false, if_true]
        omega
    | push_front v =>
      obtain ⟨s1, e1, v1, z1, c1⟩ := push_front_refines s hv v
      have hl3 : no_pop_on_empty s1 rest = true := by
        simpa [Op.run, e1, Res.state] using hl2
      obtain ⟨s2, e2, v2, c2, z2⟩ :=
        ih s1 (v :: l) v1 (by rw [c1, hc]; simp) hl3
      refine ⟨s2, ?_, v2, ?_, ?_⟩
      · simp only [run_ops, Op.run, e1]; exact e2
      · simpa [list_after, Op.on_list] using c2
      · simp only [pops, pushes, List.countP_cons, Op.is_pop] at z2 ⊢
        simp only [Bool.false_eq_true, if_false, Bool.not_false, if_true]
        omega
    | pop_back =>
      have hne : 0 < s.self.size_ := by
        rcases hl1 with hh | hh
        · simp [Op.is_pop] at hh
        · exact hh
      obtain ⟨v1, z1, c1⟩ := pop_back_refines s hv hne
      have hl3 : no_pop_on_empty (pop_back s) rest = true := by
        simpa [Op.run, Res.state] using hl2
      obtain ⟨s2, e2, v2, c2, z2⟩ :=
        ih (pop_back s) l.dropLast v1 (by rw [c1, hc]; simp) hl3
      refine ⟨s2, ?_, v2, ?_, ?_⟩
      · simp only [run_ops, Op.run]; exact e2
      · simpa [list_after, Op.on_list] using c2
      · simp only [pops, pushes, List.countP_cons, Op.is_pop] at z2 ⊢
        simp only [Bool.not_true, Bool.false_eq_true, if_false, if_true]
        omega
    | pop_front =>
      have hne : 0 < s.self.size_ := by
        rcases hl1 with hh | hh
        · simp [Op.is_pop] at hh
        · exact hh
      obtain ⟨v1, z1, c1⟩ := pop_front_refines s hv hne
      have hl3 : no_pop_on_empty (pop_front s) rest = true := by
        simpa [Op.run, Res.state] using hl2
      obtain ⟨s2, e2, v2, c2, z2⟩ :=
        ih (pop_front s) l.tail v1 (by rw [c1, hc]; simp) hl3
      refine ⟨s2, ?_, v2, ?_, ?_⟩
      · simp only [run_ops, Op.run]; exact e2
      · simpa [list_after, Op.on_list] using c2
      · simp only [pops, pushes, List.countP_cons, Op.is_pop] at z2 ⊢
        simp only [Bool.not_true, Bool.false_eq_true, if_false, if_true]
        omega

/-! ## Cursors -/

theorem begin_plus_index {T : Type} (s : State T) (k : CInt) (hk : 0 ≤ k.val)
    (hfit : s.self.first_index_ + k.val.toNat < size_t_mod) :
    ((begin s).plus k).get_index = s.self.first_index_ + k.val.toNat := by
  simp only [common_iterator.get_index, common_iterator.plus, common_iterator.add_assign, begin]
  have h1 : ((s.self.first_index_ : Int) + k.val) = ((s.self.first_index_ + k.val.toNat : Nat) : Int) := by
    omega
  rw [h1, ← Int.natCast_mod, Int.toNat_natCast, Nat.mod_eq_of_lt hfit]

/-! ## The shifting loops -/

theorem contents_getElem?_eq {T : Type} (s : State T) (i : Nat) :
    (contents s)[i]? = if i < size s then some (subscript s i) else none := by
  by_cases c : i < size s
  · rw [if_pos c, contents_getElem? s i c]
  · rw [if_neg c, List.getElem?_eq_none]
    rw [contents_length]; omega

theorem erase_loop_next {T : Type} (data : Nat → Nat) (len : Nat) :
    ∀ (start : Nat) (h : Heap T),
      ((List.range' start len).foldl
        (fun h i => slot_write h data i (slot_read h data (i + 1))) h).next = h.next := by
  induction len with
  | zero => intro start h; rfl
  | succ n ih =>
    intro start h
    rw [List.range'_succ, List.foldl_cons, ih]
    rfl

theorem erase_loop_read {T : Type} (data : Nat → Nat) (nb : Nat)
    (hinj : ∀ i, i < nb → ∀ j, j < nb → data i = data j → i = j) (len : Nat) :
    ∀ (start : Nat) (h : Heap T), start + len < block_size_ * nb →
      ∀ g, g < block_size_ * nb →
        slot_read ((List.range' start len).foldl
            (fun h i => slot_write h data i (slot_read h data (i + 1))) h) data g =
          if start ≤ g ∧ g < start + len then slot_read h data (g + 1) else slot_read h data g := by
  induction len with
  | zero =>
    intro start h _ g _
    rw [if_neg (by omega)]
    rfl
  | succ n ih =>
    intro start h hb g hg
    rw [List.range'_succ, List.foldl_cons, ih (start + 1) _ (by omega) g hg]
    by_cases c1 : start + 1 ≤ g ∧ g < start + 1 + n
    · rw [if_pos c1, if_pos (by omega),
        slot_read_write h data nb hinj start (g + 1) (by omega) (by omega), if_neg (by omega)]
    · rw [if_neg c1, slot_read_write h data nb hinj start g (by omega) hg]
      by_cases c2 : g = start
      · rw [if_pos c2, if_pos (by omega), c2]
      · rw [if_neg c2, if_neg (by omega)]

/-- What `erase` does at a cursor inside the window. -/
theorem erase_spec {T : Type} (s : State T) (hv : Valid s) (it : common_iterator) (k : Nat)
    (hk : k < s.self.size_) (hit : it.get_index = s.self.first_index_ + k) :
    Valid (erase s it) ∧ (erase s it).self.size_ + 1 = s.self.size_ ∧
    (erase s it).self.first_index_ = s.self.first_index_ ∧
    (erase s it).self.number_of_blocks_ = s.self.number_of_blocks_ ∧
    (∀ i, i + 1 < s.self.size_ →
      subscript (erase s it) i = if i < k then subscript s i else subscript s (i + 1)) := by
  obtain ⟨h1, h2, h3, h4⟩ := hv
  have hd := dec_pos (s.self.first_index_ + s.self.size_) (by omega)
  have hv1 : Valid (T := T)
      { heap := erase_loop s.self.data_ it.get_index (dec (s.self.first_index_ + s.self.size_))
          s.heap, self := s.self } := by
    refine ⟨h1, h2, ?_, h4⟩
    intro i hi
    dsimp only [erase_loop]
    rw [erase_loop_next]
    exact h3 i hi
  obtain ⟨c1, c2, c3, c4, c5⟩ := pop_back_spec _ hv1 (by dsimp only; omega)
  refine ⟨c1, c2, c3, c4, ?_⟩
  intro i hi
  have e := c5 i hi
  dsimp only [erase] at e ⊢
  rw [e]
  dsimp only [subscript, erase_loop]
  rw [hit, hd, erase_loop_read s.self.data_ s.self.number_of_blocks_ h4 _ _ _ (by omega) _
    (by omega)]
  by_cases c : i < k
  · rw [if_pos c, if_neg (by omega)]
  · rw [if_neg c, if_pos (by omega)]
    rfl

theorem erase_contents {T : Type} (s : State T) (hv : Valid s) (it : common_iterator) (k : Nat)
    (hk : k < s.self.size_) (hit : it.get_index = s.self.first_index_ + k) :
    contents (erase s it) = (contents s).take k ++ (contents s).drop (k + 1) := by
  obtain ⟨_, c2, _, _, c5⟩ := erase_spec s hv it k hk hit
  apply List.ext_getElem?
  intro n
  have hlen : ((contents s).take k).length = k := by
    rw [List.length_take, contents_length]
    exact Nat.min_eq_left (Nat.le_of_lt hk)
  rw [contents_getElem?_eq, List.getElem?_append, hlen]
  by_cases c : n < k
  · rw [if_pos c, List.getElem?_take_of_lt c, contents_getElem?_eq]
    have hn : n < size (erase s it) := by show n < (erase s it).self.size_; omega
    have hn2 : n < size s := by show n < s.self.size_; omega
    rw [if_pos hn, if_pos hn2, c5 n (by omega), if_pos c]
  · rw [if_neg c, List.getElem?_drop, contents_getElem?_eq]
    have e : k + 1 + (n - k) = n + 1 := by omega
    rw [e]
    by_cases c3 : n + 1 < s.self.size_
    · have hn : n < size (erase s it) := by show n < (erase s it).self.size_; omega
      rw [if_pos hn, if_pos (show n + 1 < size s from c3), c5 n c3, if_neg c]
    · have hn : ¬ n < size (erase s it) := by show ¬ n < (erase s it).self.size_; omega
      rw [if_neg hn, if_neg (show ¬ n + 1 < size s from c3)]

theorem insert_loop_next {T : Type} (data : Nat → Nat) (stop : Nat) (start : Nat) :
    ∀ (h : Heap T), (insert_loop data stop start h).next = h.next := by
  induction start with
  | zero => intro h; rfl
  | succ e ih =>
    intro h
    unfold insert_loop
    by_cases c : e + 1 > stop
    · rw [if_pos c, ih]; rfl
    · rw [if_neg c]

theorem insert_loop_read {T : Type} (data : Nat → Nat) (nb : Nat)
    (hinj : ∀ i, i < nb → ∀ j, j < nb → data i = data j → i = j) (stop : Nat) (start : Nat) :
    ∀ (h : Heap T), start < block_size_ * nb → ∀ g, g < block_size_ * nb →
      slot_read (insert_loop data stop start h) data g =
        if stop < g ∧ g ≤ start then slot_read h data (g - 1) else slot_read h data g := by
  induction start with
  | zero =>
    intro h _ g _
    rw [if_neg (by omega)]
    rfl
  | succ e ih =>
    intro h hb g hg
    unfold insert_loop
    by_cases c : e + 1 > stop
    · rw [if_pos c, ih _ (by omega) g hg]
      by_cases c1 : stop < g ∧ g ≤ e
      · rw [if_pos c1, if_pos (by omega),
          slot_read_write h data nb hinj (e + 1) (g - 1) hb (by omega), if_neg (by omega)]
      · rw [if_neg c1, slot_read_write h data nb hinj (e + 1) g hb hg]
        by_cases c2 : g = e + 1
        · rw [if_pos c2, if_pos (by omega), c2]
          rfl
        · rw [if_neg c2, if_neg (by omega)]
    · rw [if_neg c, if_neg (by omega)]

/-- What `insert` does at a cursor inside the window, or at its end, when the table is not full
at the back. -/
theorem insert_spec_of_room {T : Type} (s : State T) (hv : Valid s)
    (hroom : full_at_back s.self = false) (it : common_iterator) (k : Nat)
    (hk : k ≤ s.self.size_) (hit : it.get_index = s.self.first_index_ + k) (v : T) :
    Valid (insert s it v) ∧ (insert s it v).self.size_ = s.self.size_ + 1 ∧
    (insert s it v).self.first_index_ = s.self.first_index_ ∧
    (insert s it v).self.number_of_blocks_ = s.self.number_of_blocks_ ∧
    (∀ i, i ≤ s.self.size_ →
      subscript (insert s it v) i =
        if i < k then subscript s i else if i = k then some v else subscript s (i - 1)) := by
  obtain ⟨h1, h2, h3, h4⟩ := hv
  have hlt : s.self.first_index_ + s.self.size_ < block_size_ * s.self.number_of_blocks_ := by
    have : ¬ (full_at_back s.self = true) := by rw [hroom]; exact Bool.false_ne_true
    rw [full_at_back_iff] at this
    omega
  simp only [insert, hroom, Bool.false_eq_true, if_false]
  refine ⟨⟨h1, ?_, ?_, h4⟩, trivial, trivial, trivial, ?_⟩
  · dsimp only; omega
  · intro i hi
    show s.self.data_ i < (slot_write _ _ _ _).next
    dsimp only [slot_write, Heap.write]
    rw [insert_loop_next]
    exact h3 i hi
  · intro i hi
    dsimp only [subscript]
    rw [hit, slot_read_write _ _ _ h4 _ _ (by omega) (by omega),
      insert_loop_read _ _ h4 _ _ _ hlt _ (by omega)]
    by_cases c1 : i < k
    · rw [if_neg (by omega), if_neg (by omega), if_pos c1]
    · rw [if_neg c1]
      by_cases c2 : i = k
      · rw [if_pos (by omega), if_pos c2]
      · rw [if_neg (by omega), if_pos (by omega), if_neg c2]
        congr 1
        omega

theorem insert_contents_of_room {T : Type} (s : State T) (hv : Valid s)
    (hroom : full_at_back s.self = false) (it : common_iterator) (k : Nat)
    (hk : k ≤ s.self.size_) (hit : it.get_index = s.self.first_index_ + k) (v : T) :
    contents (insert s it v) = (contents s).take k ++ some v :: (contents s).drop k := by
  obtain ⟨_, c2, _, _, c5⟩ := insert_spec_of_room s hv hroom it k hk hit v
  apply List.ext_getElem?
  intro n
  have hlen : ((contents s).take k).length = k := by
    rw [List.length_take, contents_length]
    exact Nat.min_eq_left hk
  rw [contents_getElem?_eq, List.getElem?_append, hlen]
  have hsz : size (insert s it v) = s.self.size_ + 1 := c2
  rw [hsz]
  by_cases c : n < k
  · rw [if_pos c, List.getElem?_take_of_lt c, contents_getElem?_eq,
      if_pos (by omega), if_pos (show n < size s from by show n < s.self.size_; omega),
      c5 n (by omega), if_pos c]
  · rw [if_neg c]
    by_cases c3 : n = k
    · rw [c3, Nat.sub_self, List.getElem?_cons_zero, if_pos (by omega), c5 k hk,
        if_neg (by omega), if_pos rfl]
    · obtain ⟨m, hm⟩ : ∃ m, n - k = m + 1 := ⟨n - k - 1, by omega⟩
      rw [hm, List.getElem?_cons_succ, List.getElem?_drop, contents_getElem?_eq]
      have e : k + m = n - 1 := by omega
      rw [e]
      by_cases c4 : n < s.self.size_ + 1
      · rw [if_pos c4, if_pos (show n - 1 < size s from by show n - 1 < s.self.size_; omega),
          c5 n (by omega), if_neg c, if_neg c3]
      · rw [if_neg c4, if_neg (show ¬ n - 1 < size s from by show ¬ n - 1 < s.self.size_; omega)]

/-! ## Copying -/

theorem slot_write_cell_of_lt {T : Type} (h : Heap T) (data : Nat → Nat) (g : Nat)
    (x : Option T) (m a o : Nat) (hm : m ≤ data (g / block_size_)) (ha : a < m) :
    (slot_write h data g x).cell a o = h.cell a o := by
  dsimp only [slot_write, Heap.write]
  rw [if_neg]
  rintro ⟨e, _⟩
  omega

theorem assign_to_stores {T : Type} (a b : Option T) : assign_to stores a b = b := by
  cases a <;> cases b <;> rfl

theorem assign_to_raw {T : Type} (raw_assign : T → Option T) (b : Option T) :
    assign_to raw_assign none b = b.bind raw_assign := by
  cases b <;> rfl

theorem copy_loop_next {T : Type} (new : Nat → Nat) (f : Heap T → Nat → Option T)
    (len : Nat) :
    ∀ (start : Nat) (h : Heap T),
      ((List.range' start len).foldl (fun hh i => slot_write hh new i (f hh i)) h).next =
        h.next := by
  induction len with
  | zero => intro start h; rfl
  | succ n ih =>
    intro start h
    rw [List.range'_succ, List.foldl_cons, ih]
    rfl

theorem copy_loop_cell_of_lt {T : Type} (new : Nat → Nat) (f : Heap T → Nat → Option T)
    (nb m : Nat) (hnew : ∀ i, i < nb → m ≤ new i) (len : Nat) :
    ∀ (start : Nat) (h : Heap T), start + len ≤ block_size_ * nb → ∀ a o, a < m →
      ((List.range' start len).foldl (fun hh i => slot_write hh new i (f hh i)) h).cell a o =
        h.cell a o := by
  induction len with
  | zero => intro start h _ a o _; rfl
  | succ n ih =>
    intro start h hb a o ha
    rw [List.range'_succ, List.foldl_cons, ih (start + 1) _ (by omega) a o ha]
    have hs : start / block_size_ < nb := by
      simp only [block_size_] at hb ⊢
      omega
    exact slot_write_cell_of_lt h new start _ m a o (hnew _ hs) ha

theorem copy_loop_read {T : Type} (raw_assign : T → Option T) (new src : Nat → Nat)
    (nb m : Nat) (hinj : ∀ i, i < nb → ∀ j, j < nb → new i = new j → i = j)
    (hnew : ∀ i, i < nb → m ≤ new i) (hsrc : ∀ i, i < nb → src i < m) (len : Nat) :
    ∀ (start : Nat) (h : Heap T), start + len ≤ block_size_ * nb →
      ∀ g, g < block_size_ * nb →
        slot_read ((List.range' start len).foldl
            (fun hh i => slot_write hh new i
              (assign_to raw_assign (slot_read hh new i) (slot_read hh src i))) h) new g =
          if start ≤ g ∧ g < start + len
          then assign_to raw_assign (slot_read h new g) (slot_read h src g)
          else slot_read h new g := by
  induction len with
  | zero =>
    intro start h _ g _
    rw [if_neg (by omega)]
    rfl
  | succ n ih =>
    intro start h hb g hg
    have hs : start / block_size_ < nb := by
      simp only [block_size_] at hb ⊢
      omega
    have hg2 : g / block_size_ < nb := by
      simp only [block_size_] at hg ⊢
      omega
    rw [List.range'_succ, List.foldl_cons, ih (start + 1) _ (by omega) g hg]
    have hsrc_read : ∀ x, slot_read (slot_write h new start x) src g = slot_read h src g :=
      fun x => slot_write_cell_of_lt h new start x m _ _ (hnew _ hs) (hsrc _ hg2)
    by_cases c1 : start + 1 ≤ g ∧ g < start + 1 + n
    · rw [if_pos c1, if_pos (by omega), hsrc_read,
        slot_read_write h new nb hinj start g (by omega) hg, if_neg (by omega)]
    · rw [if_neg c1, slot_read_write h new nb hinj start g (by omega) hg]
      by_cases c2 : g = start
      · rw [if_pos c2, if_pos (by omega), c2]
      · rw [if_neg c2, if_neg (by omega)]

theorem copy_fields {T : Type} (raw_assign : T → Option T) (h : Heap T) (src : Deque) :
    (copy raw_assign h src).self.first_index_ = src.first_index_ ∧
    (copy raw_assign h src).self.number_of_blocks_ = src.number_of_blocks_ ∧
    (copy raw_assign h src).self.size_ = src.size_ :=
  ⟨rfl, rfl, rfl⟩

theorem copy_data {T : Type} (raw_assign : T → Option T) (h : Heap T) (src : Deque)
    (i : Nat) :
    (copy raw_assign h src).self.data_ i =
      if i < src.number_of_blocks_ then h.next + i else 0 := by
  simp [copy, alloc_blocks_table, table_new]

theorem copy_next {T : Type} (raw_assign : T → Option T) (h : Heap T) (src : Deque) :
    (copy raw_assign h src).heap.next = h.next + src.number_of_blocks_ := by
  simp only [copy, copy_loop_next, alloc_blocks_next]

theorem copy_valid {T : Type} (raw_assign : T → Option T) (h : Heap T) (src : Deque)
    (hv : Valid ({ heap := h, self := src } : State T)) : Valid (copy raw_assign h src) := by
  obtain ⟨h1, h2, _, _⟩ := hv
  refine ⟨h1, h2, ?_, ?_⟩
  · intro i hi
    have hi2 : i < src.number_of_blocks_ := hi
    rw [copy_data, copy_next, if_pos hi2]
    omega
  · intro i hi j hj e
    have hi2 : i < src.number_of_blocks_ := hi
    have hj2 : j < src.number_of_blocks_ := hj
    rw [copy_data, copy_data, if_pos hi2, if_pos hj2] at e
    omega

/-- Below the address `h.next` the copy constructor leaves the heap as it was. -/
theorem copy_cell_of_lt {T : Type} (raw_assign : T → Option T) (h : Heap T) (src : Deque)
    (hv : Valid ({ heap := h, self := src } : State T)) (a o : Nat) (ha : a < h.next) :
    (copy raw_assign h src).heap.cell a o = h.cell a o := by
  obtain ⟨_, h2, _, _⟩ := hv
  dsimp only [copy]
  rw [copy_loop_cell_of_lt _ _ src.number_of_blocks_ h.next ?_ _ _ _ h2 a o ha,
    alloc_blocks_cell, if_neg (by omega)]
  intro i hi
  rw [alloc_blocks_table, if_pos hi]
  omega

/-- Before the last loop of `copy` every slot of the new table is raw. -/
theorem copy_fresh_slot {T : Type} (h : Heap T) (n g : Nat) (hg : g < block_size_ * n) :
    slot_read (alloc_blocks h n table_new).1 (alloc_blocks h n table_new).2 g
      = (none : Option T) := by
  have hgn : g / 32 < n := by
    simp only [block_size_] at hg
    omega
  simp only [slot_read, block_size_]
  rw [alloc_blocks_table, if_pos hgn, alloc_blocks_cell, if_pos (by omega)]

/-- A slot of the copy's window holds what the assignment of the element type leaves in a raw
slot when it assigns the contents of the source's slot. -/
theorem copy_slot_read {T : Type} (raw_assign : T → Option T) (h : Heap T) (src : Deque)
    (hv : Valid ({ heap := h, self := src } : State T)) (g : Nat)
    (hg1 : src.first_index_ ≤ g) (hg2 : g < src.first_index_ + src.size_) :
    slot_read (copy raw_assign h src).heap (copy raw_assign h src).self.data_ g =
      (slot_read h src.data_ g).bind raw_assign := by
  obtain ⟨_, h2, h3, _⟩ := hv
  have h2b : src.first_index_ + src.size_ ≤ block_size_ * src.number_of_blocks_ := h2
  have hgn : g / block_size_ < src.number_of_blocks_ := by
    simp only [block_size_] at h2b ⊢
    omega
  dsimp only [copy]
  rw [copy_loop_read raw_assign _ _ src.number_of_blocks_ h.next ?_ ?_ h3 _ _ _ h2b g
      (by omega), if_pos ⟨hg1, hg2⟩, copy_fresh_slot h _ g (by omega), assign_to_raw]
  · congr 1
    dsimp only [slot_read]
    rw [alloc_blocks_cell, if_neg]
    have := h3 _ hgn
    dsimp only at this
    omega
  · intro i hi j hj e
    rw [alloc_blocks_table, alloc_blocks_table, if_pos hi, if_pos hj] at e
    omega
  · intro i hi
    rw [alloc_blocks_table, if_pos hi]
    omega

/-- For a trivially copyable element type a slot of the copy's window holds what the source's
slot holds. -/
theorem copy_slot_read_stores {T : Type} (h : Heap T) (src : Deque)
    (hv : Valid ({ heap := h, self := src } : State T)) (g : Nat)
    (hg1 : src.first_index_ ≤ g) (hg2 : g < src.first_index_ + src.size_) :
    slot_read (copy stores h src).heap (copy stores h src).self.data_ g =
      slot_read h src.data_ g := by
  rw [copy_slot_read stores h src hv g hg1 hg2]
  cases slot_read h src.data_ g <;> rfl

/-- For an element type whose assignment constructs nothing in a raw slot every slot of the
copy's window is raw. -/
theorem copy_slot_read_nothing {T : Type} (h : Heap T) (src : Deque)
    (hv : Valid ({ heap := h, self := src } : State T)) (g : Nat)
    (hg1 : src.first_index_ ≤ g) (hg2 : g < src.first_index_ + src.size_) :
    slot_read (copy constructs_nothing h src).heap (copy constructs_nothing h src).self.data_ g
      = none := by
  rw [copy_slot_read constructs_nothing h src hv g hg1 hg2]
  cases slot_read h src.data_ g <;> rfl

/-- What the copy constructor does for a trivially copyable element type: the fields of the
source, the contents of the source's slots in the slots of the window, the same elements under
`operator[]`. -/
theorem copy_stores_spec {T : Type} (h : Heap T) (src : Deque)
    (hv : Valid ({ heap := h, self := src } : State T)) :
    (copy stores h src).self.first_index_ = src.first_index_ ∧
    (copy stores h src).self.number_of_blocks_ = src.number_of_blocks_ ∧
    (copy stores h src).self.size_ = src.size_ ∧
    (∀ g, src.first_index_ ≤ g → g < src.first_index_ + src.size_ →
      slot_read (copy stores h src).heap (copy stores h src).self.data_ g =
        slot_read h src.data_ g) ∧
    (∀ i, i < src.size_ →
      subscript (copy stores h src) i = subscript ({ heap := h, self := src } : State T) i) := by
  refine ⟨rfl, rfl, rfl, fun g h1 h2 => copy_slot_read_stores h src hv g h1 h2, ?_⟩
  intro i hi
  exact copy_slot_read_stores h src hv (src.first_index_ + i) (by omega) (by omega)

/-! ## Frame: a deque writes only into its own blocks -/

theorem slot_write_frame {T : Type} (h : Heap T) (data : Nat → Nat) (nb m : Nat)
    (hown : ∀ i, i < nb → m ≤ data i) (g : Nat) (hg : g < block_size_ * nb) (x : Option T)
    (a o : Nat) (ha : a < m) : (slot_write h data g x).cell a o = h.cell a o := by
  have hs : g / block_size_ < nb := by
    simp only [block_size_] at hg ⊢
    omega
  exact slot_write_cell_of_lt h data g x m a o (hown _ hs) ha

theorem insert_loop_frame {T : Type} (data : Nat → Nat) (nb m : Nat)
    (hown : ∀ i, i < nb → m ≤ data i) (stop : Nat) (start : Nat) :
    ∀ (h : Heap T), start < block_size_ * nb → ∀ a o, a < m →
      (insert_loop data stop start h).cell a o = h.cell a o := by
  induction start with
  | zero => intro h _ a o _; rfl
  | succ e ih =>
    intro h hb a o ha
    unfold insert_loop
    by_cases c : e + 1 > stop
    · rw [if_pos c, ih _ (by omega) a o ha]
      exact slot_write_frame h data nb m hown (e + 1) hb _ a o ha
    · rw [if_neg c]

theorem erase_loop_frame {T : Type} (data : Nat → Nat) (nb m : Nat)
    (hown : ∀ i, i < nb → m ≤ data i) (len : Nat) :
    ∀ (start : Nat) (h : Heap T), start + len ≤ block_size_ * nb → ∀ a o, a < m →
      ((List.range' start len).foldl
        (fun h i => slot_write h data i (slot_read h data (i + 1))) h).cell a o = h.cell a o := by
  induction len with
  | zero => intro start h _ a o _; rfl
  | succ n ih =>
    intro start h hb a o ha
    rw [List.range'_succ, List.foldl_cons, ih (start + 1) _ (by omega) a o ha]
    exact slot_write_frame h data nb m hown start (by omega) _ a o ha

theorem expand_owns {T : Type} (m : Nat) (s : State T) (ho : Owns m s) (hm : m ≤ s.heap.next) :
    Owns m (expand s) ∧ m ≤ (expand s).heap.next ∧
    ∀ a o, a < m → (expand s).heap.cell a o = s.heap.cell a o := by
  obtain ⟨hv, hown⟩ := ho
  refine ⟨⟨expand_valid s hv, ?_⟩, ?_, ?_⟩
  · intro i hi
    rw [expand_number_of_blocks] at hi
    by_cases c : s.self.number_of_blocks_ ≤ i ∧ i < 2 * s.self.number_of_blocks_
    · rw [expand_data_mid s i c.1 c.2]
      exact hown _ (by omega)
    · rw [expand_data_outer s i (by omega) hi]
      omega
  · rw [expand_next]; omega
  · intro a o ha
    rw [expand_cell, if_neg (by omega)]

theorem back_ready_owns {T : Type} (m : Nat) (s : State T) (ho : Owns m s)
    (hm : m ≤ s.heap.next) :
    Owns m (back_ready s) ∧ m ≤ (back_ready s).heap.next ∧
    ∀ a o, a < m → (back_ready s).heap.cell a o = s.heap.cell a o := by
  unfold back_ready
  by_cases c : full_at_back s.self = true
  · rw [if_pos c]; exact expand_owns m s ho hm
  · rw [if_neg c]; exact ⟨ho, hm, fun _ _ _ => rfl⟩

theorem front_ready_owns {T : Type} (m : Nat) (s : State T) (ho : Owns m s)
    (hm : m ≤ s.heap.next) :
    Owns m (front_ready s) ∧ m ≤ (front_ready s).heap.next ∧
    ∀ a o, a < m → (front_ready s).heap.cell a o = s.heap.cell a o := by
  unfold front_ready
  by_cases c : s.self.first_index_ = 0
  · rw [if_pos c]; exact expand_owns m s ho hm
  · rw [if_neg c]; exact ⟨ho, hm, fun _ _ _ => rfl⟩

theorem back_ready_capacity {T : Type} (s : State T) :
    block_size_ * s.self.number_of_blocks_ ≤
      block_size_ * (back_ready s).self.number_of_blocks_ := by
  unfold back_ready
  by_cases c : full_at_back s.self = true
  · rw [if_pos c, expand_number_of_blocks]
    simp only [block_size_]; omega
  · rw [if_neg c]

theorem begin_plus_index_le {T : Type} (s : State T) (k : CInt) (hk : 0 ≤ k.val) :
    ((begin s).plus k).get_index ≤ s.self.first_index_ + k.val.toNat := by
  simp only [common_iterator.get_index, common_iterator.plus, common_iterator.add_assign, begin]
  have h1 : ((s.self.first_index_ : Int) + k.val) =
      ((s.self.first_index_ + k.val.toNat : Nat) : Int) := by
    omega
  rw [h1, ← Int.natCast_mod, Int.toNat_natCast]
  exact Nat.mod_le _ _

theorem push_back_owns {T : Type} (m : Nat) (s : State T) (ho : Owns m s)
    (hm : m ≤ s.heap.next) (v : T) :
    Owns m (push_back s (some v)).state ∧ m ≤ (push_back s (some v)).state.heap.next ∧
    ∀ a o, a < m → (push_back s (some v)).state.heap.cell a o = s.heap.cell a o := by
  obtain ⟨⟨o1, o2⟩, o3, o4⟩ := back_ready_owns m s ho hm
  obtain ⟨_, b2, _, _⟩ := back_ready_spec s ho.1
  obtain ⟨c1, _⟩ := store_back_spec (back_ready s) o1 b2 (some v) _ rfl
  rw [push_back_some]
  refine ⟨⟨c1, o2⟩, o3, ?_⟩
  intro a o ha
  rw [← o4 a o ha]
  exact slot_write_frame _ _ _ m o2 _ b2 _ a o ha

theorem push_front_owns {T : Type} (m : Nat) (s : State T) (ho : Owns m s)
    (hm : m ≤ s.heap.next) (v : T) :
    Owns m (push_front s (some v)).state ∧ m ≤ (push_front s (some v)).state.heap.next ∧
    ∀ a o, a < m → (push_front s (some v)).state.heap.cell a o = s.heap.cell a o := by
  obtain ⟨⟨o1, o2⟩, o3, o4⟩ := front_ready_owns m s ho hm
  obtain ⟨_, b2, _, _⟩ := front_ready_spec s ho.1
  obtain ⟨c1, _⟩ := store_front_spec (front_ready s) o1 b2 (some v) _ rfl
  rw [push_front_some]
  refine ⟨⟨c1, o2⟩, o3, ?_⟩
  intro a o ha
  rw [← o4 a o ha]
  have hwin := o1.2.1
  have hd := dec_pos _ b2
  exact slot_write_frame _ _ _ m o2 _ (by omega) _ a o ha

theorem pop_back_owns {T : Type} (m : Nat) (s : State T) (ho : Owns m s)
    (hm : m ≤ s.heap.next) (hne : 0 < s.self.size_) :
    Owns m (pop_back s) ∧ m ≤ (pop_back s).heap.next ∧
    ∀ a o, a < m → (pop_back s).heap.cell a o = s.heap.cell a o := by
  obtain ⟨c1, _⟩ := pop_back_spec s ho.1 hne
  refine ⟨⟨c1, ho.2⟩, hm, ?_⟩
  intro a o ha
  have hwin := ho.1.2.1
  have hd := dec_pos (s.self.first_index_ + s.self.size_) (by omega)
  exact slot_write_frame _ _ _ m ho.2 _ (by omega) _ a o ha

theorem pop_front_owns {T : Type} (m : Nat) (s : State T) (ho : Owns m s)
    (hm : m ≤ s.heap.next) (hne : 0 < s.self.size_) :
    Owns m (pop_front s) ∧ m ≤ (pop_front s).heap.next ∧
    ∀ a o, a < m → (pop_front s).heap.cell a o = s.heap.cell a o := by
  obtain ⟨c1, _⟩ := pop_front_spec s ho.1 hne
  refine ⟨⟨c1, ho.2⟩, hm, ?_⟩
  intro a o ha
  have hwin := ho.1.2.1
  exact slot_write_frame _ _ _ m ho.2 _ (by omega) _ a o ha

theorem assign_owns {T : Type} (m : Nat) (s : State T) (ho : Owns m s)
    (hm : m ≤ s.heap.next) (i : Nat) (hi : i < s.self.size_) (v : T) :
    Owns m (assign s i v) ∧ m ≤ (assign s i v).heap.next ∧
    ∀ a o, a < m → (assign s i v).heap.cell a o = s.heap.cell a o := by
  have hwin := ho.1.2.1
  refine ⟨⟨ho.1, ho.2⟩, hm, ?_⟩
  intro a o ha
  exact slot_write_frame _ _ _ m ho.2 _ (by omega) _ a o ha

theorem insert_owns {T : Type} (m : Nat) (s : State T) (ho : Owns m s)
    (hm : m ≤ s.heap.next) (it : common_iterator)
    (hit : it.get_index ≤ s.self.first_index_ + s.self.size_) (v : T) :
    Owns m (insert s it v) ∧ m ≤ (insert s it v).heap.next ∧
    ∀ a o, a < m → (insert s it v).heap.cell a o = s.heap.cell a o := by
  obtain ⟨⟨o1, o2⟩, o3, o4⟩ := back_ready_owns m s ho hm
  obtain ⟨_, b2, b3, _⟩ := back_ready_spec s ho.1
  have hcap := back_ready_capacity s
  have hwin := ho.1.2.1
  have hfull : s.self.first_index_ + s.self.size_ <
      block_size_ * (back_ready s).self.number_of_blocks_ := by
    by_cases c : full_at_back s.self = true
    · have e : back_ready s = expand s := by unfold back_ready; rw [if_pos c]
      rw [e, expand_number_of_blocks]
      have := ho.1.1
      simp only [block_size_] at hwin ⊢
      omega
    · have e : back_ready s = s := by unfold back_ready; rw [if_neg c]
      rw [e]
      rw [full_at_back_iff] at c
      omega
  have e : insert s it v =
      { heap := slot_write
          (insert_loop (back_ready s).self.data_ it.get_index
            ((back_ready s).self.first_index_ + (back_ready s).self.size_) (back_ready s).heap)
          (back_ready s).self.data_ it.get_index (some v),
        self := { (back_ready s).self with size_ := (back_ready s).self.size_ + 1 } } := rfl
  rw [e]
  obtain ⟨h1, h2, h3, h4⟩ := o1
  refine ⟨⟨⟨h1, ?_, ?_, h4⟩, o2⟩, ?_, ?_⟩
  · dsimp only; omega
  · intro i hi
    show (back_ready s).self.data_ i < (slot_write _ _ _ _).next
    dsimp only [slot_write, Heap.write]
    rw [insert_loop_next]
    exact h3 i hi
  · show m ≤ (slot_write _ _ _ _).next
    dsimp only [slot_write, Heap.write]
    rw [insert_loop_next]
    exact o3
  · intro a o ha
    dsimp only
    rw [slot_write_frame _ _ _ m o2 _ (by omega) _ a o ha,
      insert_loop_frame _ _ m o2 _ _ _ b2 a o ha]
    exact o4 a o ha

theorem erase_owns {T : Type} (m : Nat) (s : State T) (ho : Owns m s)
    (hm : m ≤ s.heap.next) (it : common_iterator) (hne : 0 < s.self.size_) :
    Owns m (erase s it) ∧ m ≤ (erase s it).heap.next ∧
    ∀ a o, a < m → (erase s it).heap.cell a o = s.heap.cell a o := by
  obtain ⟨⟨h1, h2, h3, h4⟩, hown⟩ := ho
  have hd := dec_pos (s.self.first_index_ + s.self.size_) (by omega)
  have ho1 : Owns m (T := T)
      { heap := erase_loop s.self.data_ it.get_index (dec (s.self.first_index_ + s.self.size_))
          s.heap, self := s.self } := by
    refine ⟨⟨h1, h2, ?_, h4⟩, hown⟩
    intro i hi
    dsimp only [erase_loop]
    rw [erase_loop_next]
    exact h3 i hi
  have hm1 : m ≤ (erase_loop s.self.data_ it.get_index
      (dec (s.self.first_index_ + s.self.size_)) s.heap).next := by
    dsimp only [erase_loop]
    rw [erase_loop_next]
    exact hm
  obtain ⟨p1, p2, p3⟩ := pop_back_owns m _ ho1 hm1 hne
  refine ⟨p1, p2, ?_⟩
  intro a o ha
  have e := p3 a o ha
  dsimp only [erase] at e ⊢
  rw [e]
  dsimp only [erase_loop]
  rw [hd]
  by_cases c : it.get_index ≤ s.self.first_index_ + s.self.size_ - 1
  · exact erase_loop_frame _ _ m hown _ _ _ (by omega) a o ha
  · have e0 : s.self.first_index_ + s.self.size_ - 1 - it.get_index = 0 := by omega
    rw [e0]
    rfl

theorem mut_run_owns {T : Type} (m : Nat) (s : State T) (ho : Owns m s)
    (hm : m ≤ s.heap.next) (mu : Mut T) (hpre : mu.pre s = true) :
    Owns m (mu.run s) ∧ m ≤ (mu.run s).heap.next ∧
    ∀ a o, a < m → (mu.run s).heap.cell a o = s.heap.cell a o := by
  cases mu with
  | push_back v => exact push_back_owns m s ho hm v
  | push_front v => exact push_front_owns m s ho hm v
  | pop_back =>
    simp only [Mut.pre, decide_eq_true_eq] at hpre
    exact pop_back_owns m s ho hm hpre
  | pop_front =>
    simp only [Mut.pre, decide_eq_true_eq] at hpre
    exact pop_front_owns m s ho hm hpre
  | insert k v =>
    simp only [Mut.pre, Bool.and_eq_true, decide_eq_true_eq] at hpre
    have h1 := begin_plus_index_le s k hpre.1
    have h2 : k.val ≤ (s.self.size_ : Int) := hpre.2
    exact insert_owns m s ho hm _ (by omega) v
  | erase k =>
    simp only [Mut.pre, Bool.and_eq_true, decide_eq_true_eq] at hpre
    have h2 : k.val < (s.self.size_ : Int) := hpre.2
    exact erase_owns m s ho hm _ (by omega)
  | assign i v =>
    simp only [Mut.pre, decide_eq_true_eq] at hpre
    exact assign_owns m s ho hm i hpre v

theorem run_muts_owns {T : Type} (m : Nat) (muts : List (Mut T)) :
    ∀ (s : State T), Owns m s → m ≤ s.heap.next → muts_pre s muts = true →
      Owns m (run_muts s muts) ∧
      ∀ a o, a < m → (run_muts s muts).heap.cell a o = s.heap.cell a o := by
  induction muts with
  | nil => intro s ho _ _; exact ⟨ho, fun _ _ _ => rfl⟩
  | cons mu rest ih =>
    intro s ho hm hpre
    simp only [muts_pre, Bool.and_eq_true] at hpre
    obtain ⟨o1, o2, o3⟩ := mut_run_owns m s ho hm mu hpre.1
    obtain ⟨r1, r2⟩ := ih (mu.run s) o1 o2 hpre.2
    refine ⟨r1, ?_⟩
    intro a o ha
    show (run_muts (mu.run s) rest).heap.cell a o = _
    rw [r2 a o ha, o3 a o ha]

theorem copy_owns {T : Type} (raw_assign : T → Option T) (h : Heap T) (src : Deque)
    (hv : Valid ({ heap := h, self := src } : State T)) :
    Owns h.next (copy raw_assign h src) ∧ h.next ≤ (copy raw_assign h src).heap.next := by
  refine ⟨⟨copy_valid raw_assign h src hv, ?_⟩, ?_⟩
  · intro i hi
    have hi2 : i < src.number_of_blocks_ := hi
    rw [copy_data, if_pos hi2]
    omega
  · rw [copy_next]; omega

/-! ## The count constructors -/

theorem count_init_contents {T : Type} (h : Heap T) (n : Nat) :
    contents (count_init h n) = ([] : List (Option T)) := rfl

theorem fill_loop_copies {T : Type} (x : Nat → Option T) (v : T) (hx : ∀ j, x j = some v)
    (n : Nat) :
    ∀ (i : Nat) (s : State T), Valid s →
      ∃ s2, fill_loop x copies n i s = Res.ret s2 ∧ Valid s2 ∧
        s2.self.size_ = s.self.size_ + n ∧
        contents s2 = contents s ++ List.replicate n (some v) := by
  induction n with
  | zero =>
    intro i s hv
    exact ⟨s, rfl, hv, rfl, by simp⟩
  | succ n ih =>
    intro i s hv
    obtain ⟨s1, e1, v1, z1, c1⟩ := push_back_refines s hv v
    obtain ⟨s2, e2, v2, z2, c2⟩ := ih (i + 1) s1 v1
    refine ⟨s2, ?_, v2, by omega, ?_⟩
    · simp only [fill_loop, hx, copies, e1]
      exact e2
    · rw [c2, c1, List.replicate_succ, List.append_assoc]
      rfl

theorem fill_loop_throws {T : Type} (v : T) (c : Nat → T → Option T) (k : Nat) :
    ∀ (n i : Nat) (s : State T), Valid s → k < n →
      (∀ j, j < k → c (i + j) v = some v) → c (i + k) v = none →
      ∃ s1, Valid s1 ∧ s1.self.size_ = s.self.size_ + k ∧
        contents s1 = contents s ++ List.replicate k (some v) ∧
        fill_loop (fun _ => some v) c n i s = Res.thrown (pop_back (back_ready s1)) := by
  induction k with
  | zero =>
    intro n i s hv hn _ hfail
    obtain ⟨n2, rfl⟩ : ∃ n2, n = n2 + 1 := ⟨n - 1, by omega⟩
    refine ⟨s, hv, rfl, by simp, ?_⟩
    rw [Nat.add_zero] at hfail
    simp only [fill_loop, hfail, push_back_none]
  | succ k ih =>
    intro n i s hv hn hok hfail
    obtain ⟨n2, rfl⟩ : ∃ n2, n = n2 + 1 := ⟨n - 1, by omega⟩
    obtain ⟨s1, e1, v1, z1, c1⟩ := push_back_refines s hv v
    have h0 : c i v = some v := by simpa using hok 0 (by omega)
    obtain ⟨s2, v2, z2, c2, e2⟩ := ih n2 (i + 1) s1 v1 (by omega)
      (fun j hj => by
        have := hok (j + 1) (by omega)
        rw [show i + 1 + j = i + (j + 1) from by omega]
        exact this)
      (by rw [show i + 1 + k = i + (k + 1) from by omega]; exact hfail)
    refine ⟨s2, v2, by omega, ?_, ?_⟩
    · rw [c2, c1, List.replicate_succ, List.append_assoc]
      rfl
    · simp only [fill_loop, h0, e1]
      exact e2

/-- A count constructor whose `k`-th element construction throws pops once: the state it leaves
has `size_` equal to `k - 1` in `size_t`, and the first `k - 1` elements are still constructed. -/
theorem Deque_size_value_throws {T : Type} (h : Heap T) (n k : Nat) (v : T)
    (c : Nat → T → Option T) (hk : k < n) (hok : ∀ j, j < k → c j v = some v)
    (hfail : c k v = none) :
    ∃ s, Deque_size_value h n v c = Res.thrown s ∧ s.self.size_ = dec k ∧
      (0 < k → contents s = List.replicate (k - 1) (some v)) := by
  obtain ⟨s1, v1, z1, c1, e1⟩ := fill_loop_throws v c k n 0 (count_init h n)
    (count_init_valid h n) hk (fun j hj => by rw [Nat.zero_add]; exact hok j hj)
    (by rw [Nat.zero_add]; exact hfail)
  have z0 : (count_init h n : State T).self.size_ = 0 := rfl
  rw [z0, Nat.zero_add] at z1
  rw [count_init_contents, List.nil_append] at c1
  obtain ⟨b1, b2, b3, b4⟩ := back_ready_spec s1 v1
  refine ⟨_, e1, ?_, ?_⟩
  · show dec (back_ready s1).self.size_ = dec k
    rw [b3, z1]
  · intro hpos
    obtain ⟨_, p2, p3⟩ := pop_back_refines (back_ready s1) b1 (by omega)
    have hwin := v1.2.1
    have e : contents (back_ready s1) = contents s1 := by
      simp only [contents, size, b3]
      exact map_range_congr _ _ _ (fun i hi => b4 i (by omega))
    obtain ⟨k2, rfl⟩ : ∃ k2, k = k2 + 1 := ⟨k - 1, by omega⟩
    rw [p3, e, c1, Nat.add_sub_cancel, List.replicate_succ', List.dropLast_concat]

/-! ## The paths that leave the window displaced -/

/-- When the table is full at the back, `insert(begin() + k, v)` moves every element one index
up: the shift starts from the cursor's index, which `expand` has left behind the window. -/
theorem insert_full_shifts_all {T : Type} (s : State T) (hv : Valid s)
    (hfull : full_at_back s.self = true) (it : common_iterator)
    (hit : it.get_index ≤ s.self.first_index_ + s.self.size_) (v : T) :
    (insert s it v).self.size_ = s.self.size_ + 1 ∧
    ∀ i, i < s.self.size_ → subscript (insert s it v) (i + 1) = subscript s i := by
  have e : insert s it v =
      { heap := slot_write
          (insert_loop (expand s).self.data_ it.get_index
            ((expand s).self.first_index_ + (expand s).self.size_) (expand s).heap)
          (expand s).self.data_ it.get_index (some v),
        self := { (expand s).self with size_ := (expand s).self.size_ + 1 } } := by
    unfold insert
    rw [if_pos hfull]
  have hx := expand_valid s hv
  obtain ⟨h1, h2, h3, h4⟩ := hx
  have hn := hv.1
  have hwin := hv.2.1
  rw [full_at_back_iff] at hfull
  have hf1 : (expand s).self.first_index_ =
      s.self.first_index_ + block_size_ * s.self.number_of_blocks_ := rfl
  have hz1 : (expand s).self.size_ = s.self.size_ := rfl
  have hn1 : (expand s).self.number_of_blocks_ = 3 * s.self.number_of_blocks_ := rfl
  rw [e]
  refine ⟨rfl, ?_⟩
  intro i hi
  dsimp only [subscript]
  have hcap : (expand s).self.first_index_ + (i + 1) <
      block_size_ * (expand s).self.number_of_blocks_ := by
    rw [hf1, hn1]; simp only [block_size_] at *; omega
  have hcap2 : (expand s).self.first_index_ + (expand s).self.size_ <
      block_size_ * (expand s).self.number_of_blocks_ := by
    rw [hf1, hn1, hz1]; simp only [block_size_] at *; omega
  have hp : it.get_index < (expand s).self.first_index_ + (i + 1) := by
    rw [hf1]; simp only [block_size_] at *; omega
  rw [slot_read_write _ _ _ h4 _ _ (by omega) hcap, if_neg (by omega),
    insert_loop_read _ _ h4 _ _ _ hcap2 _ hcap, if_pos ⟨hp, by rw [hz1]; omega⟩]
  have := expand_subscript s hv i (by omega)
  dsimp only [subscript] at this
  rw [← this]
  congr 1

/-- When the element construction in `push_front` throws, the exception leaves `size_` as it was
and the window one slot further to the front: every element is one index up. -/
theorem push_front_throws_spec {T : Type} (s : State T) (hv : Valid s) :
    (push_front s (none : Option T)).returned = false ∧
    (push_front s (none : Option T)).state.self.size_ = s.self.size_ ∧
    ∀ i, i < s.self.size_ →
      subscript (push_front s (none : Option T)).state (i + 1) = subscript s i := by
  obtain ⟨b1, b2, b3, b4⟩ := front_ready_spec s hv
  have hd := dec_pos _ b2
  have hwin := hv.2.1
  rw [push_front_none]
  refine ⟨rfl, b3, ?_⟩
  intro i hi
  rw [← b4 i (by omega)]
  dsimp only [Res.state, subscript]
  congr 1
  omega

/-! ## Cursor arithmetic -/

theorem CInt.ext_val (a b : CInt) (h : a.val = b.val) : a = b := by
  cases a; cases b
  simp only at h
  subst h
  rfl

theorem to_int_val (x : Nat) :
    (to_int x).val =
      if (x : Int) % 4294967296 < 2147483648 then (x : Int) % 4294967296
      else (x : Int) % 4294967296 - 4294967296 := by
  have e : ((x % 2 ^ 32 : Nat) : Int) = (x : Int) % 4294967296 := by
    rw [Int.natCast_mod]; norm_num
  simp only [to_int, e]
  norm_num

theorem size_t_mod_cast : (size_t_mod : Int) = 18446744073709551616 := by
  simp only [size_t_mod]; norm_num

theorem plus_index_cast (a : common_iterator) (k : CInt) :
    ((a.plus k).index_ : Int) = ((a.index_ : Int) + k.val) % 18446744073709551616 := by
  simp only [common_iterator.plus, common_iterator.add_assign, size_t_mod_cast]
  exact Int.toNat_of_nonneg (Int.emod_nonneg _ (by norm_num))

theorem minus_val (a b : common_iterator) :
    (a.minus b).val =
      if (((a.index_ : Int) - (b.index_ : Int)) % 18446744073709551616) % 4294967296 < 2147483648
      then (((a.index_ : Int) - (b.index_ : Int)) % 18446744073709551616) % 4294967296
      else (((a.index_ : Int) - (b.index_ : Int)) % 18446744073709551616) % 4294967296
        - 4294967296 := by
  simp only [common_iterator.minus, to_int_val, size_t_mod_cast]
  rw [Int.toNat_of_nonneg (Int.emod_nonneg _ (by norm_num))]

/-! ## The fields after a push -/

theorem push_back_self_full {T : Type} (s : State T) (v : T)
    (hf : full_at_back s.self = true) :
    (push_back s (some v)).state.self.first_index_ =
      s.self.first_index_ + block_size_ * s.self.number_of_blocks_ ∧
    (push_back s (some v)).state.self.number_of_blocks_ = 3 * s.self.number_of_blocks_ ∧
    (push_back s (some v)).state.self.size_ = s.self.size_ + 1 := by
  have e : back_ready s = expand s := by unfold back_ready; rw [if_pos hf]
  rw [push_back_some, e]
  exact ⟨rfl, rfl, rfl⟩

theorem push_back_self_room {T : Type} (s : State T) (v : T)
    (hf : full_at_back s.self = false) :
    (push_back s (some v)).state.self.first_index_ = s.self.first_index_ ∧
    (push_back s (some v)).state.self.number_of_blocks_ = s.self.number_of_blocks_ ∧
    (push_back s (some v)).state.self.size_ = s.self.size_ + 1 := by
  have e : back_ready s = s := by
    unfold back_ready; rw [hf]; rfl
  rw [push_back_some, e]
  exact ⟨rfl, rfl, rfl⟩

theorem push_front_self_full {T : Type} (s : State T) (v : T)
    (hf : s.self.first_index_ = 0) :
    (push_front s (some v)).state.self.first_index_ =
      dec (s.self.first_index_ + block_size_ * s.self.number_of_blocks_) ∧
    (push_front s (some v)).state.self.number_of_blocks_ = 3 * s.self.number_of_blocks_ ∧
    (push_front s (some v)).state.self.size_ = s.self.size_ + 1 := by
  have e : front_ready s = expand s := by unfold front_ready; rw [if_pos hf]
  rw [push_front_some, e]
  exact ⟨rfl, rfl, rfl⟩

theorem push_front_self_room {T : Type} (s : State T) (v : T)
    (hf : s.self.first_index_ ≠ 0) :
    (push_front s (some v)).state.self.first_index_ = dec s.self.first_index_ ∧
    (push_front s (some v)).state.self.number_of_blocks_ = s.self.number_of_blocks_ ∧
    (push_front s (some v)).state.self.size_ = s.self.size_ + 1 := by
  have e : front_ready s = s := by unfold front_ready; rw [if_neg hf]
  rw [push_front_some, e]
  exact ⟨rfl, rfl, rfl⟩

/-! ## Amortized growth -/

theorem budget_step {T : Type} (s : State T) (op : Op T) (hop : op.is_pop = false) (n w : Nat)
    (hb : Budget s.self n w) :
    Budget (op.run s).state.self (n + 1) (w + op.growth_work s) := by
  obtain ⟨h1, h2, h3, h4, h5, h6⟩ := hb
  simp only [block_size_] at h2
  cases op with
  | push_back v =>
    by_cases c : full_at_back s.self = true
    · obtain ⟨e1, e2, e3⟩ := push_back_self_full s v c
      rw [full_at_back_iff] at c
      simp only [Budget, Op.run, Op.growth_work, expand_work, expansion_coefficient_,
        block_size_, e1, e2, e3] at c ⊢
      rw [if_pos (by rw [full_at_back_iff]; simp only [block_size_]; exact c)]
      omega
    · have c2 : full_at_back s.self = false := by simpa using c
      obtain ⟨e1, e2, e3⟩ := push_back_self_room s v c2
      rw [full_at_back_iff] at c
      simp only [Budget, Op.run, Op.growth_work, block_size_, e1, e2, e3, c2] at c ⊢
      simp only [Bool.false_eq_true, if_false]
      omega
  | push_front v =>
    by_cases c : s.self.first_index_ = 0
    · obtain ⟨e1, e2, e3⟩ := push_front_self_full s v c
      have hd := dec_pos (s.self.first_index_ + block_size_ * s.self.number_of_blocks_)
        (by simp only [block_size_]; omega)
      simp only [Budget, Op.run, Op.growth_work, expand_work, expansion_coefficient_,
        e1, e2, e3, hd, if_pos c]
      simp only [block_size_]
      omega
    · obtain ⟨e1, e2, e3⟩ := push_front_self_room s v c
      have hd := dec_pos s.self.first_index_ (by omega)
      simp only [Budget, Op.run, Op.growth_work, e1, e2, e3, hd, if_neg c]
      simp only [block_size_]
      omega
  | pop_back => simp [Op.is_pop] at hop
  | pop_front => simp [Op.is_pop] at hop

theorem growth_work_budget {T : Type} (ops : List (Op T)) :
    ∀ (s : State T) (n w : Nat), (∀ op, op ∈ ops → op.is_pop = false) → Budget s.self n w →
      ∃ nb, w + growth_work s ops + 2 ≤ 2 * nb ∧ 16 * nb ≤ 3 * (n + ops.length) + 45 := by
  induction ops with
  | nil =>
    intro s n w _ hb
    exact ⟨s.self.number_of_blocks_, by simp only [growth_work]; exact hb.2.2.1,
      by simp only [List.length_nil]; exact hb.2.2.2.1⟩
  | cons op rest ih =>
    intro s n w hall hb
    have hop := hall op (List.mem_cons_self _ _)
    obtain ⟨nb, g1, g2⟩ := ih (op.run s).state (n + 1) (w + op.growth_work s)
      (fun o ho => hall o (List.mem_cons_of_mem _ ho)) (budget_step s op hop n w hb)
    refine ⟨nb, ?_, ?_⟩
    · simp only [growth_work]; omega
    · simp only [List.length_cons]; omega

theorem Deque_default_budget {T : Type} (h : Heap T) : Budget (Deque_default h).self 0 0 := by
  have e1 : (Deque_default h).self.first_index_ = 0 := rfl
  have e2 : (Deque_default h).self.number_of_blocks_ = 1 := rfl
  have e3 : (Deque_default h).self.size_ = 0 := rfl
  simp only [Budget, e1, e2, e3, block_size_]
  omega

/-! ## The layout inequality -/

theorem Valid.layout {T : Type} {s : State T} (hv : Valid s) : Layout s.self :=
  ⟨hv.1, hv.2.1⟩

theorem set_layout {T : Type} (h : Heap T) (d : Deque) (hl : Layout d) :
    Layout (set h d).self := hl

theorem push_back_layout {T : Type} (s : State T) (hl : Layout s.self) (v : T) :
    Layout (push_back s (some v)).state.self := by
  obtain ⟨h1, h2⟩ := hl
  simp only [block_size_] at h2
  by_cases c : full_at_back s.self = true
  · obtain ⟨e1, e2, e3⟩ := push_back_self_full s v c
    simp only [Layout, e1, e2, e3, block_size_]
    omega
  · have c2 : full_at_back s.self = false := by simpa using c
    obtain ⟨e1, e2, e3⟩ := push_back_self_room s v c2
    rw [full_at_back_iff] at c
    simp only [block_size_] at c
    simp only [Layout, e1, e2, e3, block_size_]
    omega

theorem push_front_layout {T : Type} (s : State T) (hl : Layout s.self) (v : T) :
    Layout (push_front s (some v)).state.self := by
  obtain ⟨h1, h2⟩ := hl
  simp only [block_size_] at h2
  by_cases c : s.self.first_index_ = 0
  · obtain ⟨e1, e2, e3⟩ := push_front_self_full s v c
    have hd := dec_pos (s.self.first_index_ + block_size_ * s.self.number_of_blocks_)
      (by simp only [block_size_]; omega)
    simp only [Layout, e1, e2, e3, hd]
    simp only [block_size_]
    omega
  · obtain ⟨e1, e2, e3⟩ := push_front_self_room s v c
    have hd := dec_pos s.self.first_index_ (by omega)
    simp only [Layout, e1, e2, e3, hd, block_size_]
    omega

theorem pop_back_layout {T : Type} (s : State T) (hl : Layout s.self) (hne : 0 < size s) :
    Layout (pop_back s).self := by
  obtain ⟨h1, h2⟩ := hl
  have hne2 : 0 < s.self.size_ := hne
  have hd := dec_pos _ hne2
  refine ⟨h1, ?_⟩
  dsimp only [pop_back]
  omega

theorem pop_front_layout {T : Type} (s : State T) (hl : Layout s.self) (hne : 0 < size s) :
    Layout (pop_front s).self := by
  obtain ⟨h1, h2⟩ := hl
  have hne2 : 0 < s.self.size_ := hne
  have hd := dec_pos _ hne2
  refine ⟨h1, ?_⟩
  dsimp only [pop_front]
  omega

theorem insert_self {T : Type} (s : State T) (it : common_iterator) (v : T) :
    (insert s it v).self = (push_back s (some v)).state.self := rfl

theorem insert_layout {T : Type} (s : State T) (hl : Layout s.self) (it : common_iterator)
    (v : T) : Layout (insert s it v).self := by
  rw [insert_self]
  exact push_back_layout s hl v

theorem erase_self {T : Type} (s : State T) (it : common_iterator) :
    (erase s it).self = (pop_back s).self := rfl

theorem erase_layout {T : Type} (s : State T) (hl : Layout s.self) (it : common_iterator)
    (hne : 0 < size s) : Layout (erase s it).self := by
  rw [erase_self]
  exact pop_back_layout s hl hne

theorem copy_assign_self {T : Type} (raw_assign : T → Option T) (s : State T)
    (deque : Deque) :
    (copy_assign raw_assign s deque).self.first_index_ = deque.first_index_ ∧
    (copy_assign raw_assign s deque).self.number_of_blocks_ = deque.number_of_blocks_ ∧
    (copy_assign raw_assign s deque).self.size_ = deque.size_ :=
  ⟨rfl, rfl, rfl⟩

theorem fill_loop_ret_layout {T : Type} (x : Nat → Option T) (c : Nat → T → Option T)
    (n : Nat) :
    ∀ (i : Nat) (s s2 : State T), Layout s.self → fill_loop x c n i s = Res.ret s2 →
      Layout s2.self := by
  induction n with
  | zero =>
    intro i s s2 hl e
    simp only [fill_loop, Res.ret.injEq] at e
    rw [← e]; exact hl
  | succ n ih =>
    intro i s s2 hl e
    simp only [fill_loop] at e
    cases hx : x i with
    | none => rw [hx] at e; simp at e
    | some v =>
      rw [hx] at e
      simp only at e
      cases hc : c i v with
      | none =>
        rw [hc, push_back_none] at e
        simp at e
      | some w =>
        rw [hc, push_back_some] at e
        simp only at e
        have hl1 := push_back_layout s hl w
        rw [push_back_some] at hl1
        exact ih (i + 1) _ s2 hl1 e

theorem count_init_layout {T : Type} (h : Heap T) (n : Nat) :
    Layout (count_init h n : State T).self :=
  (count_init_valid h n).layout

/-! ## When the pushes grow the table -/

theorem push_back_eq_store {T : Type} (s : State T) (v : T) :
    push_back s (some v) = Res.ret (store_back (back_ready s) v) := rfl

theorem push_front_eq_store {T : Type} (s : State T) (v : T) :
    push_front s (some v) = Res.ret (store_front (front_ready s) v) := rfl

theorem back_ready_of_full {T : Type} (s : State T) (hf : full_at_back s.self = true) :
    back_ready s = expand s := by
  unfold back_ready; rw [if_pos hf]

theorem back_ready_of_room {T : Type} (s : State T) (hf : full_at_back s.self = false) :
    back_ready s = s := by
  unfold back_ready; rw [hf]; rfl

theorem front_ready_of_zero {T : Type} (s : State T) (hf : s.self.first_index_ = 0) :
    front_ready s = expand s := by
  unfold front_ready; rw [if_pos hf]

theorem front_ready_of_pos {T : Type} (s : State T) (hf : s.self.first_index_ ≠ 0) :
    front_ready s = s := by
  unfold front_ready; rw [if_neg hf]

theorem expand_layout_strict {T : Type} (s : State T) (hl : Layout s.self) :
    0 < (expand s).self.first_index_ ∧
    (expand s).self.first_index_ + (expand s).self.size_ <
      block_size_ * (expand s).self.number_of_blocks_ := by
  obtain ⟨h1, h2⟩ := hl
  rw [expand_first_index, expand_size, expand_number_of_blocks]
  simp only [block_size_] at h2 ⊢
  omega

theorem back_ready_room {T : Type} (s : State T) (hl : Layout s.self) :
    (back_ready s).self.first_index_ + (back_ready s).self.size_ <
      block_size_ * (back_ready s).self.number_of_blocks_ := by
  by_cases c : full_at_back s.self = true
  · rw [back_ready_of_full s c]
    exact (expand_layout_strict s hl).2
  · have c2 : full_at_back s.self = false := by simpa using c
    rw [back_ready_of_room s c2]
    rw [full_at_back_iff] at c
    have := hl.2
    omega

theorem front_ready_room {T : Type} (s : State T) (hl : Layout s.self) :
    0 < (front_ready s).self.first_index_ ∧
    (front_ready s).self.first_index_ + (front_ready s).self.size_ ≤
      block_size_ * (front_ready s).self.number_of_blocks_ := by
  by_cases c : s.self.first_index_ = 0
  · rw [front_ready_of_zero s c]
    have := expand_layout_strict s hl
    exact ⟨this.1, Nat.le_of_lt this.2⟩
  · rw [front_ready_of_pos s c]
    exact ⟨by omega, hl.2⟩

/-! ## The count constructors do not grow the table -/

theorem fill_loop_no_growth {T : Type} (x : Nat → Option T) (c : Nat → T → Option T)
    (n : Nat) :
    ∀ (i : Nat) (s s2 : State T),
      s.self.first_index_ + s.self.size_ + n ≤ block_size_ * s.self.number_of_blocks_ →
      fill_loop x c n i s = Res.ret s2 →
      s2.self.number_of_blocks_ = s.self.number_of_blocks_ ∧
      s2.self.first_index_ = s.self.first_index_ ∧
      s2.self.size_ = s.self.size_ + n := by
  induction n with
  | zero =>
    intro i s s2 _ e
    simp only [fill_loop, Res.ret.injEq] at e
    rw [← e]
    exact ⟨rfl, rfl, rfl⟩
  | succ n ih =>
    intro i s s2 hroom e
    simp only [fill_loop] at e
    cases hx : x i with
    | none => rw [hx] at e; simp at e
    | some v =>
      rw [hx] at e
      simp only at e
      cases hc : c i v with
      | none =>
        rw [hc, push_back_none] at e
        simp at e
      | some w =>
        have hf : full_at_back s.self = false := by
          cases hfb : full_at_back s.self with
          | false => rfl
          | true =>
            have := (full_at_back_iff _).1 hfb
            omega
        obtain ⟨e1, e2, e3⟩ := push_back_self_room s w hf
        rw [hc] at e
        have hret : push_back s (some w) = Res.ret (push_back s (some w)).state := rfl
        rw [hret] at e
        simp only at e
        obtain ⟨r1, r2, r3⟩ := ih (i + 1) _ s2 (by rw [e1, e2, e3]; omega) e
        rw [e1] at r2
        rw [e2] at r1
        rw [e3] at r3
        exact ⟨r1, r2, by omega⟩

theorem count_init_fields {T : Type} (h : Heap T) (n : Nat) :
    (count_init h n : State T).self.first_index_ = 0 ∧
    (count_init h n : State T).self.number_of_blocks_ = n / block_size_ + 1 ∧
    (count_init h n : State T).self.size_ = 0 :=
  ⟨rfl, rfl, rfl⟩

theorem count_capacity (n : Nat) : n < block_size_ * (n / block_size_ + 1) := by
  simp only [block_size_]
  omega

theorem count_fill_no_growth {T : Type} (h : Heap T) (n : Nat) (x : Nat → Option T)
    (c : Nat → T → Option T) (j : Nat) (hj : j ≤ n) (s : State T)
    (e : fill_loop x c j 0 (count_init h n) = Res.ret s) :
    s.self.number_of_blocks_ = n / block_size_ + 1 ∧ s.self.first_index_ = 0 ∧
    s.self.size_ = j := by
  obtain ⟨f1, f2, f3⟩ := count_init_fields (T := T) h n
  have hcap := count_capacity n
  obtain ⟨r1, r2, r3⟩ := fill_loop_no_growth x c j 0 (count_init h n) s
    (by rw [f1, f2, f3]; omega) e
  rw [f2] at r1
  rw [f1] at r2
  rw [f3] at r3
  exact ⟨r1, r2, by omega⟩

/-! ## Which slots hold a constructed element -/

theorem set_live {T : Type} (h : Heap T) (d : Deque) (hz : d.size_ = 0) :
    Live (set h d) := by
  intro g hg
  have hg2 : g / 32 < d.number_of_blocks_ := by
    have : g < block_size_ * d.number_of_blocks_ := hg
    simp only [block_size_] at this
    omega
  have e : slot_read (set h d).heap (set h d).self.data_ g = none := by
    simp only [slot_read, block_size_]
    rw [set_data, if_pos hg2, set_cell, if_pos (by omega)]
  rw [e]
  have hz2 : (set h d).self.size_ = 0 := hz
  rw [hz2]
  simp only [Option.isSome_none, Bool.false_eq_true, false_iff]
  omega

theorem Deque_default_live {T : Type} (h : Heap T) : Live (Deque_default h) :=
  set_live h _ rfl

theorem count_init_live {T : Type} (h : Heap T) (n : Nat) : Live (count_init h n) :=
  set_live h _ rfl

theorem expand_live {T : Type} (s : State T) (hv : Valid s) (hl : Live s) :
    Live (expand s) := by
  intro g hg
  rw [expand_number_of_blocks] at hg
  rw [expand_first_index, expand_size]
  have hn := hv.1
  have hwin := hv.2.1
  simp only [block_size_] at hg hwin ⊢
  by_cases c : 32 * s.self.number_of_blocks_ ≤ g ∧ g < 64 * s.self.number_of_blocks_
  · have e := expand_slot_read s hv (g - 32 * s.self.number_of_blocks_)
      (by simp only [block_size_]; omega)
    simp only [block_size_] at e
    rw [show g - 32 * s.self.number_of_blocks_ + 32 * s.self.number_of_blocks_ = g from by omega]
      at e
    rw [e]
    have := hl (g - 32 * s.self.number_of_blocks_) (by simp only [block_size_]; omega)
    rw [this]
    omega
  · have hk : g / 32 < s.self.number_of_blocks_ ∨ 2 * s.self.number_of_blocks_ ≤ g / 32 := by
      omega
    have e : slot_read (expand s).heap (expand s).self.data_ g = none := by
      simp only [slot_read, block_size_]
      rw [expand_data_outer s _ hk (by omega), expand_cell, if_pos (by omega)]
    rw [e]
    simp only [Option.isSome_none, Bool.false_eq_true, false_iff]
    omega

theorem store_back_live {T : Type} (s : State T) (hv : Valid s) (hl : Live s)
    (hroom : s.self.first_index_ + s.self.size_ < block_size_ * s.self.number_of_blocks_)
    (v : T) : Live (store_back s v) := by
  intro g hg
  have hg2 : g < block_size_ * s.self.number_of_blocks_ := hg
  dsimp only [store_back]
  rw [slot_read_write _ _ _ hv.2.2.2 _ _ hroom hg2]
  by_cases c : g = s.self.first_index_ + s.self.size_
  · rw [if_pos c]
    simp only [Option.isSome_some, true_iff]
    omega
  · rw [if_neg c, hl g hg2]
    omega

theorem store_front_live {T : Type} (s : State T) (hv : Valid s) (hl : Live s)
    (hroom : 0 < s.self.first_index_) (v : T) : Live (store_front s v) := by
  intro g hg
  have hg2 : g < block_size_ * s.self.number_of_blocks_ := hg
  have hd := dec_pos _ hroom
  have hwin := hv.2.1
  dsimp only [store_front]
  rw [slot_read_write _ _ _ hv.2.2.2 _ _ (by omega) hg2]
  by_cases c : g = dec s.self.first_index_
  · rw [if_pos c]
    simp only [Option.isSome_some, true_iff]
    omega
  · rw [if_neg c, hl g hg2]
    omega

theorem push_back_live {T : Type} (s : State T) (hv : Valid s) (hl : Live s) (v : T) :
    Valid (push_back s (some v)).state ∧ Live (push_back s (some v)).state := by
  obtain ⟨b1, b2, _, _⟩ := back_ready_spec s hv
  obtain ⟨c1, _⟩ := store_back_spec (back_ready s) b1 b2 (some v) _ rfl
  have hlb : Live (back_ready s) := by
    by_cases c : full_at_back s.self = true
    · rw [back_ready_of_full s c]; exact expand_live s hv hl
    · have c2 : full_at_back s.self = false := by simpa using c
      rw [back_ready_of_room s c2]; exact hl
  rw [push_back_eq_store]
  exact ⟨c1, store_back_live _ b1 hlb b2 v⟩

theorem push_front_live {T : Type} (s : State T) (hv : Valid s) (hl : Live s) (v : T) :
    Valid (push_front s (some v)).state ∧ Live (push_front s (some v)).state := by
  obtain ⟨b1, b2, _, _⟩ := front_ready_spec s hv
  obtain ⟨c1, _⟩ := store_front_spec (front_ready s) b1 b2 (some v) _ rfl
  have hlb : Live (front_ready s) := by
    by_cases c : s.self.first_index_ = 0
    · rw [front_ready_of_zero s c]; exact expand_live s hv hl
    · rw [front_ready_of_pos s c]; exact hl
  rw [push_front_eq_store]
  exact ⟨c1, store_front_live _ b1 hlb b2 v⟩

theorem pop_back_live {T : Type} (s : State T) (hv : Valid s) (hl : Live s)
    (hne : 0 < s.self.size_) : Live (pop_back s) := by
  intro g hg
  have hg2 : g < block_size_ * s.self.number_of_blocks_ := hg
  have hd := dec_pos _ hne
  have hd2 := dec_pos (s.self.first_index_ + s.self.size_) (by omega)
  have hwin := hv.2.1
  dsimp only [pop_back]
  rw [slot_read_write _ _ _ hv.2.2.2 _ _ (by omega) hg2]
  by_cases c : g = dec (s.self.first_index_ + s.self.size_)
  · rw [if_pos c]
    simp only [Option.isSome_none, Bool.false_eq_true, false_iff]
    omega
  · rw [if_neg c, hl g hg2]
    omega

theorem pop_front_live {T : Type} (s : State T) (hv : Valid s) (hl : Live s)
    (hne : 0 < s.self.size_) : Live (pop_front s) := by
  intro g hg
  have hg2 : g < block_size_ * s.self.number_of_blocks_ := hg
  have hd := dec_pos _ hne
  have hwin := hv.2.1
  dsimp only [pop_front]
  rw [slot_read_write _ _ _ hv.2.2.2 _ _ (by omega) hg2]
  by_cases c : g = s.self.first_index_
  · rw [if_pos c]
    simp only [Option.isSome_none, Bool.false_eq_true, false_iff]
    omega
  · rw [if_neg c, hl g hg2]
    omega

theorem insert_live_of_room {T : Type} (s : State T) (hv : Valid s) (hl : Live s)
    (hroom : full_at_back s.self = false) (it : common_iterator) (k : Nat)
    (hk : k ≤ s.self.size_) (hit : it.get_index = s.self.first_index_ + k) (v : T) :
    Live (insert s it v) := by
  have hlt : s.self.first_index_ + s.self.size_ < block_size_ * s.self.number_of_blocks_ := by
    have : ¬ (full_at_back s.self = true) := by rw [hroom]; exact Bool.false_ne_true
    rw [full_at_back_iff] at this
    have := hv.2.1
    omega
  have h4 := hv.2.2.2
  intro g hg
  simp only [insert, hroom, Bool.false_eq_true, if_false] at hg ⊢
  rw [hit, slot_read_write _ _ _ h4 _ _ (by omega) hg]
  by_cases c1 : g = s.self.first_index_ + k
  · rw [if_pos c1]
    simp only [Option.isSome_some, true_iff]
    omega
  · rw [if_neg c1, insert_loop_read _ _ h4 _ _ _ hlt _ hg]
    by_cases c2 : s.self.first_index_ + k < g ∧ g ≤ s.self.first_index_ + s.self.size_
    · rw [if_pos c2, hl (g - 1) (by omega)]
      omega
    · rw [if_neg c2, hl g hg]
      omega

theorem erase_live {T : Type} (s : State T) (hv : Valid s) (hl : Live s)
    (it : common_iterator) (k : Nat) (hk : k < s.self.size_)
    (hit : it.get_index = s.self.first_index_ + k) : Live (erase s it) := by
  have hwin := hv.2.1
  have h4 := hv.2.2.2
  have hd := dec_pos (s.self.first_index_ + s.self.size_) (by omega)
  have hd2 := dec_pos s.self.size_ (by omega)
  intro g hg
  have hg2 : g < block_size_ * s.self.number_of_blocks_ := hg
  dsimp only [erase, pop_back, erase_loop]
  rw [hit, hd, hd2, slot_read_write _ _ _ h4 _ _ (by omega) hg2]
  by_cases c1 : g = s.self.first_index_ + s.self.size_ - 1
  · rw [if_pos c1]
    simp only [Option.isSome_none, Bool.false_eq_true, false_iff]
    omega
  · rw [if_neg c1, erase_loop_read _ _ h4 _ _ _ (by omega) _ hg2]
    by_cases c2 : s.self.first_index_ + k ≤ g ∧
        g < s.self.first_index_ + k + (s.self.first_index_ + s.self.size_ - 1 -
          (s.self.first_index_ + k))
    · rw [if_pos c2, hl (g + 1) (by omega)]
      omega
    · rw [if_neg c2, hl g hg2]
      omega

theorem copy_slot_read_outside {T : Type} (raw_assign : T → Option T) (h : Heap T)
    (src : Deque) (hv : Valid ({ heap := h, self := src } : State T)) (g : Nat)
    (hg : g < block_size_ * src.number_of_blocks_)
    (hout : ¬ (src.first_index_ ≤ g ∧ g < src.first_index_ + src.size_)) :
    slot_read (copy raw_assign h src).heap (copy raw_assign h src).self.data_ g = none := by
  obtain ⟨_, h2, h3, _⟩ := hv
  have h2b : src.first_index_ + src.size_ ≤ block_size_ * src.number_of_blocks_ := h2
  dsimp only [copy]
  rw [copy_loop_read raw_assign _ _ src.number_of_blocks_ h.next ?_ ?_ h3 _ _ _ h2b g hg,
    if_neg hout, copy_fresh_slot h _ g hg]
  · intro i hi j hj e
    rw [alloc_blocks_table, alloc_blocks_table, if_pos hi, if_pos hj] at e
    omega
  · intro i hi
    rw [alloc_blocks_table, if_pos hi]
    omega

theorem copy_live {T : Type} (h : Heap T) (src : Deque)
    (hv : Valid ({ heap := h, self := src } : State T))
    (hl : Live ({ heap := h, self := src } : State T)) : Live (copy stores h src) := by
  intro g hg
  have hg2 : g < block_size_ * src.number_of_blocks_ := hg
  show _ ↔ (src.first_index_ ≤ g ∧ g < src.first_index_ + src.size_)
  by_cases c : src.first_index_ ≤ g ∧ g < src.first_index_ + src.size_
  · rw [copy_slot_read_stores h src hv g c.1 c.2]
    exact hl g hg2
  · rw [copy_slot_read_outside stores h src hv g hg2 c]
    simp only [Option.isSome_none, Bool.false_eq_true, false_iff]
    exact c

theorem fill_loop_ret_live {T : Type} (x : Nat → Option T) (c : Nat → T → Option T)
    (n : Nat) :
    ∀ (i : Nat) (s s2 : State T), Valid s → Live s → fill_loop x c n i s = Res.ret s2 →
      Valid s2 ∧ Live s2 := by
  induction n with
  | zero =>
    intro i s s2 hv hl e
    simp only [fill_loop, Res.ret.injEq] at e
    rw [← e]; exact ⟨hv, hl⟩
  | succ n ih =>
    intro i s s2 hv hl e
    simp only [fill_loop] at e
    cases hx : x i with
    | none => rw [hx] at e; simp at e
    | some v =>
      rw [hx] at e
      simp only at e
      cases hc : c i v with
      | none =>
        rw [hc, push_back_none] at e
        simp at e
      | some w =>
        rw [hc] at e
        have hret : push_back s (some w) = Res.ret (push_back s (some w)).state := rfl
        rw [hret] at e
        simp only at e
        obtain ⟨v1, l1⟩ := push_back_live s hv hl w
        exact ih (i + 1) _ s2 v1 l1 e

/-- Every operation but `insert` on a table that is full at the back keeps the constructed
slots equal to the window; the copy constructor is that of a trivially copyable element type. -/
theorem live_kept {T : Type} :
    (∀ (h : Heap T), Live (Deque_default h)) ∧
    (∀ (h : Heap T) n t c s, Deque_size h n t c = Res.ret s → Live s) ∧
    (∀ (h : Heap T) n v c s, Deque_size_value h n v c = Res.ret s → Live s) ∧
    (∀ (h : Heap T) src, Valid ({ heap := h, self := src } : State T) →
      Live ({ heap := h, self := src } : State T) → Live (copy stores h src)) ∧
    (∀ (s : State T) v, Valid s → Live s → Live (push_back s (some v)).state) ∧
    (∀ (s : State T) v, Valid s → Live s → Live (push_front s (some v)).state) ∧
    (∀ (s : State T), Valid s → Live s → 0 < size s → Live (pop_back s)) ∧
    (∀ (s : State T), Valid s → Live s → 0 < size s → Live (pop_front s)) ∧
    (∀ (s : State T) (k : CInt) v, Valid s → Fits s → Live s → full_at_back s.self = false →
      0 ≤ k.val → k.val ≤ (size s : Int) → Live (insert s ((begin s).plus k) v)) ∧
    (∀ (s : State T) (k : CInt), Valid s → Fits s → Live s →
      0 ≤ k.val → k.val < (size s : Int) → Live (erase s ((begin s).plus k))) := by
  refine ⟨Deque_default_live, ?_, ?_, fun h src hv hl => copy_live h src hv hl,
    fun s v hv hl => (push_back_live s hv hl v).2,
    fun s v hv hl => (push_front_live s hv hl v).2,
    fun s hv hl hne => pop_back_live s hv hl hne,
    fun s hv hl hne => pop_front_live s hv hl hne, ?_, ?_⟩
  · intro h n t c s e
    exact (fill_loop_ret_live t c n 0 _ s (count_init_valid h n) (count_init_live h n) e).2
  · intro h n v c s e
    exact (fill_loop_ret_live _ c n 0 _ s (count_init_valid h n) (count_init_live h n) e).2
  · intro s k v hv hfit hl hroom hk0 hk
    have hk2 : k.val.toNat ≤ s.self.size_ := by
      have : k.val ≤ (s.self.size_ : Int) := hk
      omega
    have hwin := hv.2.1
    have hf : block_size_ * s.self.number_of_blocks_ < size_t_mod := hfit
    exact insert_live_of_room s hv hl hroom _ _ hk2 (begin_plus_index s k hk0 (by omega)) v
  · intro s k hv hfit hl hk0 hk
    have hk2 : k.val.toNat < s.self.size_ := by
      have : k.val < (s.self.size_ : Int) := hk
      omega
    have hwin := hv.2.1
    have hf : block_size_ * s.self.number_of_blocks_ < size_t_mod := hfit
    exact erase_live s hv hl _ _ hk2 (begin_plus_index s k hk0 (by omega))

/-! ## Alternating pushes and pops move the window to the end of the table -/

theorem one_cycle_full {T : Type} (v : T) (s : State T) (hz : s.self.size_ = 0)
    (hf : s.self.first_index_ = block_size_ * s.self.number_of_blocks_) :
    (one_cycle v s).self.first_index_ =
      s.self.first_index_ + block_size_ * s.self.number_of_blocks_ + 1 ∧
    (one_cycle v s).self.number_of_blocks_ = 3 * s.self.number_of_blocks_ ∧
    (one_cycle v s).self.size_ = 0 := by
  have hfull : full_at_back s.self = true := by
    rw [full_at_back_iff, hz, Nat.add_zero]; exact hf
  obtain ⟨e1, e2, e3⟩ := push_back_self_full s v hfull
  refine ⟨?_, ?_, ?_⟩
  · show (push_back s (some v)).state.self.first_index_ + 1 = _
    rw [e1]
  · show (push_back s (some v)).state.self.number_of_blocks_ = _
    rw [e2]
  · show dec (push_back s (some v)).state.self.size_ = 0
    rw [e3, hz]
    rfl

theorem one_cycle_room {T : Type} (v : T) (s : State T) (hz : s.self.size_ = 0)
    (hf : s.self.first_index_ ≠ block_size_ * s.self.number_of_blocks_) :
    (one_cycle v s).self.first_index_ = s.self.first_index_ + 1 ∧
    (one_cycle v s).self.number_of_blocks_ = s.self.number_of_blocks_ ∧
    (one_cycle v s).self.size_ = 0 := by
  have hroom : full_at_back s.self = false := by
    cases hfb : full_at_back s.self with
    | false => rfl
    | true =>
      have := (full_at_back_iff _).1 hfb
      rw [hz, Nat.add_zero] at this
      exact absurd this hf
  obtain ⟨e1, e2, e3⟩ := push_back_self_room s v hroom
  refine ⟨?_, ?_, ?_⟩
  · show (push_back s (some v)).state.self.first_index_ + 1 = _
    rw [e1]
  · show (push_back s (some v)).state.self.number_of_blocks_ = _
    rw [e2]
  · show dec (push_back s (some v)).state.self.size_ = 0
    rw [e3, hz]
    rfl

theorem one_cycle_size {T : Type} (v : T) (s : State T) (hz : s.self.size_ = 0) :
    (one_cycle v s).self.size_ = 0 := by
  by_cases c : s.self.first_index_ = block_size_ * s.self.number_of_blocks_
  · exact (one_cycle_full v s hz c).2.2
  · exact (one_cycle_room v s hz c).2.2

theorem push_back_size {T : Type} (s : State T) (v : T) :
    (push_back s (some v)).state.self.size_ = s.self.size_ + 1 := by
  cases hfb : full_at_back s.self with
  | false => exact (push_back_self_room s v hfb).2.2
  | true => exact (push_back_self_full s v hfb).2.2

/-- The alternating calls, from an empty deque: they return, no pop is made on an empty deque,
`size()` is `0` or `1` throughout, and the state they leave is that of the cycles. -/
theorem alternating_run {T : Type} (v : T) (m : Nat) :
    ∀ (s : State T), s.self.size_ = 0 →
      run_ops s (alternating v m) = Res.ret (Nat.iterate (one_cycle v) m s) ∧
      no_pop_on_empty s (alternating v m) = true ∧
      size_at_most 1 s (alternating v m) = true := by
  induction m with
  | zero =>
    intro s hz
    refine ⟨rfl, rfl, ?_⟩
    simp only [alternating, size_at_most, size, hz]
    decide
  | succ m ih =>
    intro s hz
    obtain ⟨r1, r2, r3⟩ := ih (one_cycle v s) (one_cycle_size v s hz)
    have hp := push_back_size s v
    have hret : push_back s (some v) = Res.ret (push_back s (some v)).state := rfl
    refine ⟨?_, ?_, ?_⟩
    · simp only [alternating, run_ops, Op.run]
      rw [hret]
      simp only [Function.iterate_succ, Function.comp]
      exact r1
    · have e2 : no_pop_on_empty s (alternating v (m + 1)) =
          ((!false || decide (0 < size s)) &&
            ((!true || decide (0 < size (push_back s (some v)).state)) &&
              no_pop_on_empty (one_cycle v s) (alternating v m))) := rfl
      have hp2 : size (push_back s (some v)).state = s.self.size_ + 1 := hp
      rw [e2, r2, hp2]
      simp
    · have e3 : size_at_most 1 s (alternating v (m + 1)) =
          (decide (size s ≤ 1) &&
            (decide (size (push_back s (some v)).state ≤ 1) &&
              size_at_most 1 (one_cycle v s) (alternating v m))) := rfl
      have hp2 : size (push_back s (some v)).state = s.self.size_ + 1 := hp
      have hz2 : size s = 0 := hz
      rw [e3, r3, hp2, hz2, hz]
      decide

/-- From an empty deque in which the layout inequality holds, some number of cycles triples the
table and leaves an empty deque in which it holds. -/
theorem cycles_triple {T : Type} (v : T) (d : Nat) :
    ∀ (s : State T), s.self.size_ = 0 → Layout s.self →
      block_size_ * s.self.number_of_blocks_ - s.self.first_index_ = d →
      ∃ m, (Nat.iterate (one_cycle v) m s).self.size_ = 0 ∧
        Layout (Nat.iterate (one_cycle v) m s).self ∧
        (Nat.iterate (one_cycle v) m s).self.number_of_blocks_ = 3 * s.self.number_of_blocks_ := by
  induction d with
  | zero =>
    intro s hz hl hd
    obtain ⟨h1, h2⟩ := hl
    have hf : s.self.first_index_ = block_size_ * s.self.number_of_blocks_ := by omega
    obtain ⟨e1, e2, e3⟩ := one_cycle_full v s hz hf
    refine ⟨1, e3, ⟨?_, ?_⟩, e2⟩
    · show 1 ≤ (one_cycle v s).self.number_of_blocks_
      rw [e2]; omega
    · show (one_cycle v s).self.first_index_ + (one_cycle v s).self.size_ ≤
        block_size_ * (one_cycle v s).self.number_of_blocks_
      rw [e1, e2, e3]
      simp only [block_size_] at hf ⊢
      omega
  | succ d ih =>
    intro s hz hl hd
    obtain ⟨h1, h2⟩ := hl
    have hf : s.self.first_index_ ≠ block_size_ * s.self.number_of_blocks_ := by omega
    obtain ⟨e1, e2, e3⟩ := one_cycle_room v s hz hf
    have hl1 : Layout (one_cycle v s).self := by
      refine ⟨?_, ?_⟩
      · rw [e2]; exact h1
      · rw [e1, e2, e3]; omega
    obtain ⟨m, r1, r2, r3⟩ := ih (one_cycle v s) e3 hl1 (by rw [e1, e2]; omega)
    refine ⟨m + 1, ?_, ?_, ?_⟩
    · rw [Function.iterate_succ_apply]; exact r1
    · rw [Function.iterate_succ_apply]; exact r2
    · rw [Function.iterate_succ_apply, r3, e2]

theorem cycles_power {T : Type} (v : T) (k : Nat) :
    ∀ (s : State T), s.self.size_ = 0 → Layout s.self →
      ∃ m, (Nat.iterate (one_cycle v) m s).self.size_ = 0 ∧
        Layout (Nat.iterate (one_cycle v) m s).self ∧
        (Nat.iterate (one_cycle v) m s).self.number_of_blocks_ =
          3 ^ k * s.self.number_of_blocks_ := by
  induction k with
  | zero =>
    intro s hz hl
    exact ⟨0, hz, hl, by simp⟩
  | succ k ih =>
    intro s hz hl
    obtain ⟨m1, a1, a2, a3⟩ := ih s hz hl
    obtain ⟨m2, b1, b2, b3⟩ := cycles_triple v _ _ a1 a2 rfl
    refine ⟨m2 + m1, ?_, ?_, ?_⟩
    · rw [Function.iterate_add_apply]; exact b1
    · rw [Function.iterate_add_apply]; exact b2
    · rw [Function.iterate_add_apply, b3, a3, pow_succ]
      ring

theorem lt_three_pow (n : Nat) : n < 3 ^ n := by
  induction n with
  | zero => simp
  | succ n ih =>
    rw [pow_succ]
    omega

set_option maxRecDepth 100000 in
/-- After 33 repetitions of `push_back(0); pop_front();` on a default-constructed deque the deque
is empty, in three blocks, with its window at slot 65. -/
theorem alternating_33_eval :
    size (run_ops (Deque_default (Heap.empty Nat)) (alternating 0 33)).state = 0 ∧
    (run_ops (Deque_default (Heap.empty Nat)) (alternating 0 33)).state.self.number_of_blocks_
      = 3 ∧
    (run_ops (Deque_default (Heap.empty Nat)) (alternating 0 33)).state.self.first_index_ = 65 ∧
    size_at_most 1 (Deque_default (Heap.empty Nat)) (alternating 0 33) = true := by
  decide

/-! ## Claims -/

/-- C1: from a default-constructed deque, every sequence of `push_back`, `push_front`,
`pop_back` and `pop_front` calls with no pop on an empty deque returns normally, leaves
`size()` equal to the pushes minus the pops, and `operator[](i)` names, for every `i < size()`,
the `i`-th element of the list that the same calls build from the empty list. -/
theorem C1_push_pop_sequence_refines_list {T : Type} (h : Heap T) (ops : List (Op T))
    (hlegal : no_pop_on_empty (Deque_default h) ops = true) :
    ∃ s, run_ops (Deque_default h) ops = Res.ret s ∧
      size s = pushes ops - pops ops ∧
      (list_after [] ops).length = size s ∧
      ∀ i, i < size s → subscript s i = (list_after [] ops)[i]? := by
  obtain ⟨s, e, _, c, z⟩ :=
    run_ops_refines ops (Deque_default h) [] (Deque_default_valid h)
      (by rw [Deque_default_contents]; rfl) hlegal
  rw [Deque_default_size] at z
  have hlen : (list_after [] ops).length = size s := by
    have := congrArg List.length c
    rw [contents_length, List.length_map] at this
    exact this.symm
  refine ⟨s, e, ?_, hlen, ?_⟩
  · show s.self.size_ = _
    omega
  · intro i hi
    have h1 := contents_getElem? s i hi
    rw [c, List.getElem?_map] at h1
    have h2 : i < (list_after [] ops).length := by omega
    rw [List.getElem?_eq_getElem h2] at h1 ⊢
    simp only [Option.map_some', Option.some.injEq] at h1
    exact h1.symm

/-- C1 at `push_back(1); push_back(2); push_front(0); pop_front()`: the deque is `[1, 2]`. -/
theorem C1_push_pop_sequence_witness :
    ∃ s, run_ops (Deque_default (Heap.empty Nat))
        [Op.push_back 1, Op.push_back 2, Op.push_front 0, Op.pop_front] = Res.ret s ∧
      size s = 2 ∧ subscript s 0 = some 1 ∧ subscript s 1 = some 2 := by
  obtain ⟨s, e, hs, _, hi⟩ :=
    C1_push_pop_sequence_refines_list (Heap.empty Nat)
      [Op.push_back 1, Op.push_back 2, Op.push_front 0, Op.pop_front] (by decide)
  have hs2 : size s = 2 := hs
  exact ⟨s, e, hs2, hi 0 (by omega), hi 1 (by omega)⟩

/-- C2: `at(i)` fails with out-of-range exactly when `i >= size()`, returns what `operator[](i)`
returns when `i < size()`, and leaves the whole state as it was. -/
theorem C2_at_checked_access {T : Type} (s : State T) (i : Nat) :
    ((at_ s i).1 = Access.out_of_range ↔ i ≥ size s) ∧
    (i < size s → (at_ s i).1 = Access.ok (subscript s i)) ∧
    (at_ s i).2 = s := by
  unfold at_ size subscript
  by_cases c : i ≥ s.self.size_
  · rw [if_pos c]
    exact ⟨⟨fun _ => c, fun _ => rfl⟩, fun hlt => absurd c (by omega), rfl⟩
  · rw [if_neg c]
    exact ⟨⟨fun hh => Access.noConfusion hh, fun hh => absurd hh c⟩, fun _ => rfl, rfl⟩

set_option maxRecDepth 100000 in
/-- C3, the code at a table that is full at the back: after 32 `push_back` calls on a
default-constructed deque (`first_index_ = 0`, one block, `size_ = 32`), `insert(begin() + 1, 99)`
grows the table and then shifts from the cursor's stale index, so the deque becomes a raw slot
followed by `0, 1, ..., 31`; `99` is stored outside the window. -/
theorem C3_insert_full_at_back_eval :
    Valid (pushed_back 32) ∧ full_at_back (pushed_back 32).self = true ∧
    contents (pushed_back 32) = (List.range 32).map some ∧
    size (insert (pushed_back 32) ((begin (pushed_back 32)).plus (CInt.ofNat 1 (by decide))) 99)
      = 33 ∧
    contents (insert (pushed_back 32) ((begin (pushed_back 32)).plus (CInt.ofNat 1 (by decide))) 99)
      = none :: (List.range 32).map some ∧
    contents (insert (pushed_back 32) ((begin (pushed_back 32)).plus (CInt.ofNat 1 (by decide))) 99)
      ≠ (contents (pushed_back 32)).take 1 ++ some 99 :: (contents (pushed_back 32)).drop 1 := by
  decide

/-- C4: on a deque satisfying the invariants, `erase(begin() + k)` with `0 <= k < size()` leaves
`size() - 1` elements, the logical sequence without its `k`-th element, and the same
`first_index_` and `number_of_blocks_`. -/
theorem C4_erase_removes_kth {T : Type} (s : State T) (hv : Valid s) (hfit : Fits s) (k : CInt)
    (hk0 : 0 ≤ k.val) (hk : k.val < (size s : Int)) :
    size (erase s ((begin s).plus k)) = size s - 1 ∧
    contents (erase s ((begin s).plus k)) =
      (contents s).take k.val.toNat ++ (contents s).drop (k.val.toNat + 1) ∧
    (erase s ((begin s).plus k)).self.first_index_ = s.self.first_index_ ∧
    (erase s ((begin s).plus k)).self.number_of_blocks_ = s.self.number_of_blocks_ := by
  have hk2 : k.val.toNat < s.self.size_ := by
    have : k.val < (s.self.size_ : Int) := hk
    omega
  have hwin := hv.2.1
  have hf : block_size_ * s.self.number_of_blocks_ < size_t_mod := hfit
  have hit := begin_plus_index s k hk0 (by omega)
  obtain ⟨_, c2, c3, c4, _⟩ := erase_spec s hv _ _ hk2 hit
  refine ⟨?_, erase_contents s hv _ _ hk2 hit, c3, c4⟩
  show (erase s ((begin s).plus k)).self.size_ = s.self.size_ - 1
  omega

set_option maxRecDepth 100000 in
/-- C4 at the deque `[0, 99, 1, 2]`: `erase(begin() + 1)` leaves `[0, 1, 2]`. -/
theorem C4_erase_removes_kth_witness :
    contents (erase
        (run_ops (Deque_default (Heap.empty Nat))
          [Op.push_back 0, Op.push_back 99, Op.push_back 1, Op.push_back 2]).state
        ((begin (run_ops (Deque_default (Heap.empty Nat))
          [Op.push_back 0, Op.push_back 99, Op.push_back 1, Op.push_back 2]).state).plus
          (CInt.ofNat 1 (by decide)))) = [some 0, some 1, some 2] :=
  (C4_erase_removes_kth
    (run_ops (Deque_default (Heap.empty Nat))
      [Op.push_back 0, Op.push_back 99, Op.push_back 1, Op.push_back 2]).state
    (by decide) (by decide) (CInt.ofNat 1 (by decide)) (by decide) (by decide)).2.1.trans
    (by decide)

/-- C5: `expand` on a deque with `n` blocks leaves `3 * n` blocks, the old block `i` at table
slot `n + i`, `first_index_` larger by `block_size_ * n`, `size_` as it was, and every
`operator[](i)` with `i < size()` naming the same element: the logical sequence is unchanged. -/
theorem C5_expand_recenters {T : Type} (s : State T) (hv : Valid s) :
    (expand s).self.number_of_blocks_ = 3 * s.self.number_of_blocks_ ∧
    (∀ i, i < s.self.number_of_blocks_ →
      (expand s).self.data_ (s.self.number_of_blocks_ + i) = s.self.data_ i) ∧
    (expand s).self.first_index_ = s.self.first_index_ + block_size_ * s.self.number_of_blocks_ ∧
    size (expand s) = size s ∧
    (∀ i, i < size s → subscript (expand s) i = subscript s i) ∧
    contents (expand s) = contents s := by
  have hwin := hv.2.1
  have hsub : ∀ i, i < size s → subscript (expand s) i = subscript s i := by
    intro i hi
    have hi2 : i < s.self.size_ := hi
    exact expand_subscript s hv i (by omega)
  refine ⟨rfl, ?_, rfl, rfl, hsub, ?_⟩
  · intro i hi
    rw [expand_data_mid s _ (by omega) (by omega)]
    congr 1
    omega
  · show (List.range (size s)).map _ = _
    exact map_range_congr _ _ _ hsub

set_option maxRecDepth 100000 in
/-- C5 at the deque `[0, 1, 2]` in one block: after `expand` there are three blocks, the window
starts at slot 32 and the deque is `[0, 1, 2]`. -/
theorem C5_expand_recenters_witness :
    (expand (pushed_back 3)).self.number_of_blocks_ = 3 ∧
    (expand (pushed_back 3)).self.first_index_ = 32 ∧
    contents (expand (pushed_back 3)) = [some 0, some 1, some 2] :=
  ⟨(C5_expand_recenters (pushed_back 3) (by decide)).1,
   (C5_expand_recenters (pushed_back 3) (by decide)).2.2.1,
   (C5_expand_recenters (pushed_back 3) (by decide)).2.2.2.2.2.trans (by decide)⟩

set_option maxRecDepth 100000 in
/-- C6, the code on the deque `[0, 1, 2]` of an element type whose assignment needs a
constructed left operand: the copy constructor gives the copy the fields of the source and runs
`T::operator=` on the three raw slots of a fresh block, where it constructs nothing; no slot of
the copy holds an element and `operator[]` names a raw slot at `0`, `1` and `2`. For a trivially
copyable element type the same call leaves `[0, 1, 2]`. -/
theorem C6_copy_assigns_to_raw_eval :
    Valid (pushed_back 3) ∧ contents (pushed_back 3) = [some 0, some 1, some 2] ∧
    (copy constructs_nothing (pushed_back 3).heap (pushed_back 3).self).self.first_index_
      = (pushed_back 3).self.first_index_ ∧
    (copy constructs_nothing (pushed_back 3).heap (pushed_back 3).self).self.number_of_blocks_
      = (pushed_back 3).self.number_of_blocks_ ∧
    size (copy constructs_nothing (pushed_back 3).heap (pushed_back 3).self) = 3 ∧
    contents (copy constructs_nothing (pushed_back 3).heap (pushed_back 3).self)
      = [none, none, none] ∧
    live_slots (copy constructs_nothing (pushed_back 3).heap (pushed_back 3).self) = 0 ∧
    contents (copy stores (pushed_back 3).heap (pushed_back 3).self)
      = [some 0, some 1, some 2] := by
  decide

/-- C7: after any sequence of mutations, each under its precondition, of a copy-constructed copy
of `D`, the source `D` has the size and the elements it had, and no block of the copy's table
is a block of the table of `D`; whatever the assignment of the element type leaves in the raw
slots the copy constructor assigns to. -/
theorem C7_copy_is_independent {T : Type} (raw_assign : T → Option T) (h : Heap T)
    (D : Deque) (hv : Valid ({ heap := h, self := D } : State T)) (muts : List (Mut T))
    (hpre : muts_pre (copy raw_assign h D) muts = true) :
    size ({ heap := (run_muts (copy raw_assign h D) muts).heap, self := D } : State T) =
      size ({ heap := h, self := D } : State T) ∧
    (∀ i, i < D.size_ →
      subscript ({ heap := (run_muts (copy raw_assign h D) muts).heap, self := D } : State T) i =
        subscript ({ heap := h, self := D } : State T) i) ∧
    (∀ i, i < (run_muts (copy raw_assign h D) muts).self.number_of_blocks_ →
      ∀ j, j < D.number_of_blocks_ →
        (run_muts (copy raw_assign h D) muts).self.data_ i ≠ D.data_ j) := by
  obtain ⟨ho, hm⟩ := copy_owns raw_assign h D hv
  obtain ⟨r1, r2⟩ := run_muts_owns h.next muts (copy raw_assign h D) ho hm hpre
  have h3 := hv.2.2.1
  have h2b : D.first_index_ + D.size_ ≤ block_size_ * D.number_of_blocks_ := hv.2.1
  refine ⟨rfl, ?_, ?_⟩
  · intro i hi
    have hb : (D.first_index_ + i) / block_size_ < D.number_of_blocks_ := by
      simp only [block_size_] at h2b ⊢
      omega
    have ha : D.data_ ((D.first_index_ + i) / block_size_) < h.next := h3 _ hb
    dsimp only [subscript, slot_read]
    rw [r2 _ _ ha, copy_cell_of_lt raw_assign h D hv _ _ ha]
  · intro i hi j hj e
    have h4 := r1.2 i hi
    have h5 : D.data_ j < h.next := h3 j hj
    omega

set_option maxRecDepth 100000 in
/-- C7 at the deque `[0, 1, 2]` of a trivially copyable element type: its copy is pushed to,
assigned to, inserted into, erased from and popped, and the source is still `[0, 1, 2]`. -/
theorem C7_copy_is_independent_witness :
    contents (State.mk
      (run_muts (copy stores (pushed_back 3).heap (pushed_back 3).self) sample_muts).heap
      (pushed_back 3).self) = [some 0, some 1, some 2] ∧
    contents (run_muts (copy stores (pushed_back 3).heap (pushed_back 3).self) sample_muts) =
      [some 5, some 1, some 8] := by
  have h := (C7_copy_is_independent stores (pushed_back 3).heap (pushed_back 3).self
    (by decide) sample_muts (by decide)).2.1
  refine ⟨?_, by decide⟩
  show (List.range 3).map _ = _
  rw [map_range_congr _ _ 3 h]
  decide

/-- C8: `Deque(n, v)` returns a deque with `size() == n` whose elements are all `v`, and
`Deque(n)` one with `size() == n` whose elements are all the value-initialized `dflt`, when no
element construction throws. -/
theorem C8_count_constructors_fill {T : Type} (h : Heap T) (n : Nat) (v dflt : T) :
    (∃ s, Deque_size_value h n v copies = Res.ret s ∧ size s = n ∧
      ∀ i, i < n → subscript s i = some v) ∧
    (∃ s, Deque_size h n (fun _ => some dflt) copies = Res.ret s ∧ size s = n ∧
      ∀ i, i < n → subscript s i = some dflt) := by
  have key : ∀ (w : T), ∃ s, fill_loop (fun _ => some w) copies n 0 (count_init h n) = Res.ret s ∧
      size s = n ∧ ∀ i, i < n → subscript s i = some w := by
    intro w
    obtain ⟨s, e, _, z, c⟩ :=
      fill_loop_copies (fun _ => some w) w (fun _ => rfl) n 0 (count_init h n)
        (count_init_valid h n)
    have z0 : (count_init h n : State T).self.size_ = 0 := rfl
    rw [z0, Nat.zero_add] at z
    rw [count_init_contents, List.nil_append] at c
    refine ⟨s, e, z, ?_⟩
    intro i hi
    have h1 := contents_getElem? s i (by show i < s.self.size_; omega)
    rw [c, List.getElem?_replicate, if_pos hi] at h1
    exact (Option.some.inj h1).symm
  exact ⟨key v, key dflt⟩

set_option maxRecDepth 100000 in
/-- C8 at `Deque(3, 7)`: the result holds `7, 7, 7`. -/
theorem C8_count_constructors_fill_witness :
    ∃ s, Deque_size_value (Heap.empty Nat) 3 7 copies = Res.ret s ∧ size s = 3 ∧
      subscript s 0 = some 7 ∧ subscript s 2 = some 7 := by
  obtain ⟨s, e, z, hi⟩ := (C8_count_constructors_fill (Heap.empty Nat) 3 7 0).1
  exact ⟨s, e, z, hi 0 (by omega), hi 2 (by omega)⟩

set_option maxRecDepth 100000 in
/-- C9, the code at `Deque(3, 7)` when the construction of element 2 throws: the handler pops
once and the exception leaves with `size_ == 1`, element 0 still constructed and one live slot
in the table; at `Deque(3, 7)` when the construction of element 0 throws, the handler pops
the empty window and `size_` wraps to `2 ^ 64 - 1`; and `Deque(3)` behaves as `Deque(3, 7)`. -/
theorem C9_count_constructor_throw_eval :
    (Deque_size_value (Heap.empty Nat) 3 7 (throws_at 2)).returned = false ∧
    size (Deque_size_value (Heap.empty Nat) 3 7 (throws_at 2)).state = 1 ∧
    subscript (Deque_size_value (Heap.empty Nat) 3 7 (throws_at 2)).state 0 = some 7 ∧
    live_slots (Deque_size_value (Heap.empty Nat) 3 7 (throws_at 2)).state = 1 ∧
    (Deque_size_value (Heap.empty Nat) 3 7 (throws_at 0)).returned = false ∧
    size (Deque_size_value (Heap.empty Nat) 3 7 (throws_at 0)).state = 2 ^ 64 - 1 ∧
    (Deque_size (Heap.empty Nat) 3 (fun _ => some 0) (throws_at 2)).returned = false ∧
    live_slots (Deque_size (Heap.empty Nat) 3 (fun _ => some 0) (throws_at 2)).state = 1 := by
  decide

set_option maxRecDepth 100000 in
/-- C10, the code at the deque `[0, 1, 2]` left by `push_back(1); push_back(2); push_front(0)`
when the construction in a further `push_front` throws: the exception leaves with `size_ == 3`
and `first_index_` one less than before, so the deque reads as a raw slot, `0`, `1`. -/
theorem C10_push_front_throw_eval :
    contents (run_ops (Deque_default (Heap.empty Nat))
      [Op.push_back 1, Op.push_back 2, Op.push_front 0]).state = [some 0, some 1, some 2] ∧
    (run_ops (Deque_default (Heap.empty Nat))
      [Op.push_back 1, Op.push_back 2, Op.push_front 0]).state.self.first_index_ = 31 ∧
    (push_front (run_ops (Deque_default (Heap.empty Nat))
      [Op.push_back 1, Op.push_back 2, Op.push_front 0]).state none).returned = false ∧
    (push_front (run_ops (Deque_default (Heap.empty Nat))
      [Op.push_back 1, Op.push_back 2, Op.push_front 0]).state none).state.self.first_index_
      = 30 ∧
    size (push_front (run_ops (Deque_default (Heap.empty Nat))
      [Op.push_back 1, Op.push_back 2, Op.push_front 0]).state none).state = 3 ∧
    contents (push_front (run_ops (Deque_default (Heap.empty Nat))
      [Op.push_back 1, Op.push_back 2, Op.push_front 0]).state none).state
      = [none, some 0, some 1] ∧
    subscript (push_front (run_ops (Deque_default (Heap.empty Nat))
      [Op.push_back 1, Op.push_back 2, Op.push_front 0]).state none).state 1
      ≠ subscript (run_ops (Deque_default (Heap.empty Nat))
      [Op.push_back 1, Op.push_back 2, Op.push_front 0]).state 1 := by
  decide

/-- C11: when the element construction in `push_back` throws, the exception is propagated and,
also when the call grew the table first, `size()` and every `operator[](i)` with `i < size()`
are as before the call. -/
theorem C11_push_back_throw_keeps_window {T : Type} (s : State T) (hv : Valid s) :
    (push_back s (none : Option T)).returned = false ∧
    size (push_back s (none : Option T)).state = size s ∧
    (∀ i, i < size s → subscript (push_back s (none : Option T)).state i = subscript s i) ∧
    contents (push_back s (none : Option T)).state = contents s := by
  obtain ⟨_, _, b3, b4⟩ := back_ready_spec s hv
  have hwin := hv.2.1
  rw [push_back_none]
  have hsub : ∀ i, i < size s → subscript (back_ready s) i = subscript s i := by
    intro i hi
    have hi2 : i < s.self.size_ := hi
    exact b4 i (by omega)
  refine ⟨rfl, b3, hsub, ?_⟩
  show (List.range (size (back_ready s))).map _ = _
  rw [show size (back_ready s) = size s from b3]
  exact map_range_congr _ _ _ hsub

set_option maxRecDepth 100000 in
/-- C11 at the deque `0, ..., 31`, full at the back: the throwing `push_back` grows the table
and leaves the 32 elements as they were. -/
theorem C11_push_back_throw_keeps_window_witness :
    (push_back (pushed_back 32) none).state.self.number_of_blocks_ = 3 ∧
    contents (push_back (pushed_back 32) none).state = (List.range 32).map some :=
  ⟨by decide,
   (C11_push_back_throw_keeps_window (pushed_back 32) (by decide)).2.2.2.trans (by decide)⟩

/-- C12: for every cursor `a` and every `int` `k`, `(a + k) - a == k`, where `a + k` adds to
the index modulo `2 ^ 64` and the difference of two cursors is the `size_t` difference of their
indices converted to `int`. -/
theorem C12_cursor_plus_minus (a : common_iterator) (k : CInt) :
    ((a.plus k).minus a) = k := by
  apply CInt.ext_val
  have hlo := k.lo
  have hhi := k.hi
  rw [minus_val, plus_index_cast]
  norm_num at hlo hhi
  split_ifs <;> omega

/-- C13: on a deque satisfying the invariants, `*(begin() + i)` with `0 <= i < size()` is what
`operator[](i)` names, and `end()` is the cursor with index `first_index_ + size()`. -/
theorem C13_cursor_dereference {T : Type} (s : State T) (hv : Valid s) (hfit : Fits s)
    (i : CInt) (hi0 : 0 ≤ i.val) (hi : i.val < (size s : Int)) :
    ((begin s).plus i).deref s.heap = subscript s i.val.toNat ∧
    (end_ s).index_ = s.self.first_index_ + size s ∧
    (end_ s).deque_ = s.self.data_ := by
  have hi2 : i.val.toNat < s.self.size_ := by
    have : i.val < (s.self.size_ : Int) := hi
    omega
  have hwin := hv.2.1
  have hf : block_size_ * s.self.number_of_blocks_ < size_t_mod := hfit
  have hit := begin_plus_index s i hi0 (by omega)
  refine ⟨?_, rfl, rfl⟩
  have hd : ((begin s).plus i).deque_ = s.self.data_ := rfl
  have hx : ((begin s).plus i).index_ = s.self.first_index_ + i.val.toNat := hit
  simp only [common_iterator.deref, subscript, slot_read, hd, hx]

set_option maxRecDepth 100000 in
/-- C13 at the deque `[0, 1, 2]`: `*(begin() + 2)` is `2`. -/
theorem C13_cursor_dereference_witness :
    ((begin (pushed_back 3)).plus (CInt.ofNat 2 (by decide))).deref (pushed_back 3).heap
      = some 2 :=
  (C13_cursor_dereference (pushed_back 3) (by decide) (by decide) (CInt.ofNat 2 (by decide))
    (by decide) (by decide)).1.trans (by decide)

/-- C14: over every sequence of `push_back` and `push_front` calls on a default-constructed
deque, the work of all `expand()` calls together, counted as blocks allocated plus table entries
copied, is at most four times the number of calls. -/
theorem C14_growth_work_linear {T : Type} (h : Heap T) (ops : List (Op T))
    (hpush : ∀ op, op ∈ ops → op.is_pop = false) :
    growth_work (Deque_default h) ops ≤ 4 * ops.length := by
  obtain ⟨nb, g1, g2⟩ :=
    growth_work_budget ops (Deque_default h) 0 0 hpush (Deque_default_budget h)
  cases ops with
  | nil => simp [growth_work]
  | cons op rest =>
    simp only [List.length_cons] at g2 ⊢
    omega

set_option maxRecDepth 100000 in
/-- C14 at 33 `push_back` calls followed by one `push_front`: one growth from one block to
three, four units of work. -/
theorem C14_growth_work_linear_witness :
    growth_work (Deque_default (Heap.empty Nat))
      ((List.range 33).map Op.push_back ++ [Op.push_front 7]) = 4 ∧
    growth_work (Deque_default (Heap.empty Nat))
      ((List.range 33).map Op.push_back ++ [Op.push_front 7]) ≤ 4 * 34 :=
  ⟨by decide,
   C14_growth_work_linear (Heap.empty Nat)
     ((List.range 33).map Op.push_back ++ [Op.push_front 7]) (by decide)⟩

/-- C15: the layout inequality `first_index_ + size_ <= block_size_ * number_of_blocks_`, with
`number_of_blocks_ >= 1`, holds after the default constructor, after a count constructor that
returns, and after the copy constructor and copy assignment from a deque in which it holds; it
is preserved by `push_back` and `push_front` when they return, by `pop_back`, `pop_front` and
`erase` on a non-empty deque, and by `insert`. -/
theorem C15_layout_inequality_kept {T : Type} :
    (∀ (h : Heap T), Layout (Deque_default h).self) ∧
    (∀ (h : Heap T) n t c s, Deque_size h n t c = Res.ret s → Layout s.self) ∧
    (∀ (h : Heap T) n v c s, Deque_size_value h n v c = Res.ret s → Layout s.self) ∧
    (∀ raw_assign (h : Heap T) src, Layout src → Layout (copy raw_assign h src).self) ∧
    (∀ (s : State T) c s2, Layout s.self → push_back s c = Res.ret s2 → Layout s2.self) ∧
    (∀ (s : State T) c s2, Layout s.self → push_front s c = Res.ret s2 → Layout s2.self) ∧
    (∀ (s : State T), Layout s.self → 0 < size s → Layout (pop_back s).self) ∧
    (∀ (s : State T), Layout s.self → 0 < size s → Layout (pop_front s).self) ∧
    (∀ (s : State T) (k : CInt) v, Layout s.self → 0 ≤ k.val → k.val ≤ (size s : Int) →
      Layout (insert s ((begin s).plus k) v).self) ∧
    (∀ (s : State T) (k : CInt), Layout s.self → 0 ≤ k.val → k.val < (size s : Int) →
      Layout (erase s ((begin s).plus k)).self) ∧
    (∀ raw_assign (s : State T) deque, Layout deque →
      Layout (copy_assign raw_assign s deque).self) := by
  refine ⟨fun h => (Deque_default_valid h).layout, ?_, ?_, fun _ _ _ hl => hl, ?_, ?_,
    fun s hl hne => pop_back_layout s hl hne, fun s hl hne => pop_front_layout s hl hne,
    fun s k v hl _ _ => insert_layout s hl _ v, ?_, fun _ _ _ hl => hl⟩
  · intro h n t c s e
    exact fill_loop_ret_layout t c n 0 _ s (count_init_layout h n) e
  · intro h n v c s e
    exact fill_loop_ret_layout _ c n 0 _ s (count_init_layout h n) e
  · intro s c s2 hl e
    cases c with
    | none => rw [push_back_none] at e; simp at e
    | some v =>
      have := push_back_layout s hl v
      rw [e] at this
      exact this
  · intro s c s2 hl e
    cases c with
    | none => rw [push_front_none] at e; simp at e
    | some v =>
      have := push_front_layout s hl v
      rw [e] at this
      exact this
  · intro s k hl _ hk
    have hne : 0 < size s := by
      have : k.val < (s.self.size_ : Int) := hk
      show 0 < s.self.size_
      omega
    exact erase_layout s hl _ hne

set_option maxRecDepth 100000 in
/-- C15 at the deque `0, ..., 31`, full at the back: the inequality holds before and after
`push_back(5)`, `insert(begin() + 1, 99)` and a copy assignment from the deque `[0, 1, 2]`. -/
theorem C15_layout_inequality_kept_witness :
    Layout (pushed_back 32).self ∧
    Layout (push_back (pushed_back 32) (some 5)).state.self ∧
    Layout (insert (pushed_back 32)
      ((begin (pushed_back 32)).plus (CInt.ofNat 1 (by decide))) 99).self ∧
    Layout (copy_assign stores (pushed_back 32) (pushed_back 3).self).self :=
  ⟨by decide,
   C15_layout_inequality_kept.2.2.2.2.1 (pushed_back 32) (some 5) _ (by decide) rfl,
   C15_layout_inequality_kept.2.2.2.2.2.2.2.2.1 (pushed_back 32) (CInt.ofNat 1 (by decide)) 99
     (by decide) (by decide) (by decide),
   C15_layout_inequality_kept.2.2.2.2.2.2.2.2.2.2 stores (pushed_back 32) (pushed_back 3).self
     (by decide)⟩

/-- C16: on a deque in which the layout inequality holds, `push_back` calls `expand()` exactly
when `first_index_ + size_ == block_size_ * number_of_blocks_` and `push_front` exactly when
`first_index_ == 0`; `number_of_blocks_` is then three times what it was and is unchanged
otherwise; the element is stored at slot `first_index_ + size_` of the state after any growth
(`push_back`) or at the decremented `first_index_` (`push_front`), and `size_` grows by one. -/
theorem C16_push_growth_rule {T : Type} (s : State T) (hl : Layout s.self) (v : T) :
    (s.self.first_index_ + s.self.size_ = block_size_ * s.self.number_of_blocks_ →
      push_back s (some v) = Res.ret (store_back (expand s) v)) ∧
    (s.self.first_index_ + s.self.size_ ≠ block_size_ * s.self.number_of_blocks_ →
      push_back s (some v) = Res.ret (store_back s v)) ∧
    (s.self.first_index_ = 0 → push_front s (some v) = Res.ret (store_front (expand s) v)) ∧
    (s.self.first_index_ ≠ 0 → push_front s (some v) = Res.ret (store_front s v)) ∧
    ((push_back s (some v)).state.self.number_of_blocks_ = 3 * s.self.number_of_blocks_ ↔
      s.self.first_index_ + s.self.size_ = block_size_ * s.self.number_of_blocks_) ∧
    (s.self.first_index_ + s.self.size_ ≠ block_size_ * s.self.number_of_blocks_ →
      (push_back s (some v)).state.self.number_of_blocks_ = s.self.number_of_blocks_) ∧
    ((push_front s (some v)).state.self.number_of_blocks_ = 3 * s.self.number_of_blocks_ ↔
      s.self.first_index_ = 0) ∧
    (s.self.first_index_ ≠ 0 →
      (push_front s (some v)).state.self.number_of_blocks_ = s.self.number_of_blocks_) ∧
    size (push_back s (some v)).state = size s + 1 ∧
    size (push_front s (some v)).state = size s + 1 ∧
    slot_read (push_back s (some v)).state.heap (push_back s (some v)).state.self.data_
      ((push_back s (some v)).state.self.first_index_ + size s) = some v ∧
    (push_front s (some v)).state.self.first_index_ + 1 = (front_ready s).self.first_index_ ∧
    slot_read (push_front s (some v)).state.heap (push_front s (some v)).state.self.data_
      (push_front s (some v)).state.self.first_index_ = some v := by
  have hnb := hl.1
  have hfr := front_ready_room s hl
  have hdec := dec_pos _ hfr.1
  have hb1 : ∀ (h : s.self.first_index_ + s.self.size_ =
      block_size_ * s.self.number_of_blocks_), back_ready s = expand s :=
    fun h => back_ready_of_full s ((full_at_back_iff _).2 h)
  have hb2 : ∀ (h : s.self.first_index_ + s.self.size_ ≠
      block_size_ * s.self.number_of_blocks_), back_ready s = s := by
    intro h
    apply back_ready_of_room
    cases hf : full_at_back s.self with
    | false => rfl
    | true => exact absurd ((full_at_back_iff _).1 hf) h
  refine ⟨fun h => by rw [push_back_eq_store, hb1 h],
    fun h => by rw [push_back_eq_store, hb2 h],
    fun h => by rw [push_front_eq_store, front_ready_of_zero s h],
    fun h => by rw [push_front_eq_store, front_ready_of_pos s h],
    ?_, ?_, ?_, ?_, ?_, ?_, ?_, ?_, ?_⟩
  · by_cases c : s.self.first_index_ + s.self.size_ = block_size_ * s.self.number_of_blocks_
    · rw [push_back_eq_store, hb1 c]
      exact ⟨fun _ => c, fun _ => rfl⟩
    · rw [push_back_eq_store, hb2 c]
      refine ⟨fun h => ?_, fun h => absurd h c⟩
      have h2 : s.self.number_of_blocks_ = 3 * s.self.number_of_blocks_ := h
      omega
  · intro c
    rw [push_back_eq_store, hb2 c]
    rfl
  · by_cases c : s.self.first_index_ = 0
    · rw [push_front_eq_store, front_ready_of_zero s c]
      exact ⟨fun _ => c, fun _ => rfl⟩
    · rw [push_front_eq_store, front_ready_of_pos s c]
      refine ⟨fun h => ?_, fun h => absurd h c⟩
      have h2 : s.self.number_of_blocks_ = 3 * s.self.number_of_blocks_ := h
      omega
  · intro c
    rw [push_front_eq_store, front_ready_of_pos s c]
    rfl
  · by_cases c : s.self.first_index_ + s.self.size_ = block_size_ * s.self.number_of_blocks_
    · rw [push_back_eq_store, hb1 c]; rfl
    · rw [push_back_eq_store, hb2 c]; rfl
  · by_cases c : s.self.first_index_ = 0
    · rw [push_front_eq_store, front_ready_of_zero s c]; rfl
    · rw [push_front_eq_store, front_ready_of_pos s c]; rfl
  · by_cases c : s.self.first_index_ + s.self.size_ = block_size_ * s.self.number_of_blocks_
    · rw [push_back_eq_store, hb1 c]
      exact slot_read_write_same _ _ _ _
    · rw [push_back_eq_store, hb2 c]
      exact slot_read_write_same _ _ _ _
  · rw [push_front_eq_store]
    show dec (front_ready s).self.first_index_ + 1 = _
    omega
  · rw [push_front_eq_store]
    exact slot_read_write_same _ _ _ _

set_option maxRecDepth 100000 in
/-- C16 at the deque `0, ..., 31` in one block, with `first_index_ == 0` and full at the back:
both pushes grow the table to three blocks; `push_back(5)` stores at slot 64 and `push_front(5)`
at slot 31. -/
theorem C16_push_growth_rule_witness :
    (push_back (pushed_back 32) (some 5)).state.self.number_of_blocks_ = 3 ∧
    (push_front (pushed_back 32) (some 5)).state.self.number_of_blocks_ = 3 ∧
    slot_read (push_back (pushed_back 32) (some 5)).state.heap
      (push_back (pushed_back 32) (some 5)).state.self.data_ 64 = some 5 ∧
    (push_front (pushed_back 32) (some 5)).state.self.first_index_ = 31 :=
  ⟨(C16_push_growth_rule (pushed_back 32) (by decide) 5).2.2.2.2.1.2 (by decide),
   (C16_push_growth_rule (pushed_back 32) (by decide) 5).2.2.2.2.2.2.1.2 (by decide),
   (C16_push_growth_rule (pushed_back 32) (by decide) 5).2.2.2.2.2.2.2.2.2.2.1,
   by decide⟩

/-- C19: on a deque in which the layout inequality holds, the slot that `push_back` writes and
the slot that `push_front` writes lie in a block below `number_of_blocks_` as it is at the write,
the decrement of `first_index_` in `push_front` does not wrap, one `expand()` leaves
`first_index_ > 0` and `first_index_ + size_ < block_size_ * number_of_blocks_`, and
`operator[](i)` with `i < size()` reads a block below `number_of_blocks_`. -/
theorem C19_accesses_inside_table {T : Type} (s : State T) (hl : Layout s.self) :
    ((back_ready s).self.first_index_ + (back_ready s).self.size_) / block_size_ <
      (back_ready s).self.number_of_blocks_ ∧
    0 < (front_ready s).self.first_index_ ∧
    dec (front_ready s).self.first_index_ + 1 = (front_ready s).self.first_index_ ∧
    dec (front_ready s).self.first_index_ / block_size_ <
      (front_ready s).self.number_of_blocks_ ∧
    0 < (expand s).self.first_index_ ∧
    (expand s).self.first_index_ + (expand s).self.size_ <
      block_size_ * (expand s).self.number_of_blocks_ ∧
    (∀ i, i < size s →
      (s.self.first_index_ + i) / block_size_ < s.self.number_of_blocks_) := by
  have hb := back_ready_room s hl
  have hf := front_ready_room s hl
  have hd := dec_pos _ hf.1
  have hx := expand_layout_strict s hl
  have hw := hl.2
  simp only [block_size_] at hb hf hw ⊢
  refine ⟨by omega, hf.1, by omega, by omega, hx.1, ?_, ?_⟩
  · have := hx.2
    simp only [block_size_] at this
    exact this
  · intro i hi
    have hi2 : i < s.self.size_ := hi
    omega

set_option maxRecDepth 100000 in
/-- C19 at the deque `0, ..., 31` in one block: `push_back` writes slot 64 and `push_front`
slot 31, both in a table of three blocks. -/
theorem C19_accesses_inside_table_witness :
    (back_ready (pushed_back 32)).self.first_index_ + (back_ready (pushed_back 32)).self.size_
      = 64 ∧
    64 / block_size_ < (back_ready (pushed_back 32)).self.number_of_blocks_ ∧
    0 < (front_ready (pushed_back 32)).self.first_index_ := by
  have h := C19_accesses_inside_table (pushed_back 32) (by decide)
  have e : (back_ready (pushed_back 32)).self.first_index_ +
      (back_ready (pushed_back 32)).self.size_ = 64 := by decide
  refine ⟨e, ?_, h.2.1⟩
  have h1 := h.1
  rw [e] at h1
  exact h1

/-- C18, as the code has it: `pop_back` leaves `first_index_` as it was and `pop_front`
increases it by one. -/
theorem C18_pops_and_first_index {T : Type} (s : State T) :
    (pop_back s).self.first_index_ = s.self.first_index_ ∧
    (pop_front s).self.first_index_ = s.self.first_index_ + 1 :=
  ⟨rfl, rfl⟩

set_option maxRecDepth 100000 in
/-- C18 fails for `pop_front`: on the deque `[0, 1, 2]` with `first_index_ == 0`, `pop_front()`
leaves `first_index_ == 1`. -/
theorem C18_pop_front_moves_first_index :
    0 < size (pushed_back 3) ∧ (pushed_back 3).self.first_index_ = 0 ∧
    (pop_front (pushed_back 3)).self.first_index_ = 1 ∧
    ¬ ((pop_back (pushed_back 3)).self.first_index_ = (pushed_back 3).self.first_index_ ∧
       (pop_front (pushed_back 3)).self.first_index_ = (pushed_back 3).self.first_index_) := by
  decide

/-- C20: a count constructor that returns leaves `number_of_blocks_ == n / 32 + 1` and
`first_index_ == 0`; the capacity `32 * (n / 32 + 1)` exceeds `n`, and the full-at-the-back test
of `push_back` is false before each of the `n` pushes; with constructions that do not throw both
constructors return. -/
theorem C20_count_constructors_no_growth {T : Type} (h : Heap T) (n : Nat) :
    (∀ t c (s : State T), Deque_size h n t c = Res.ret s →
      s.self.number_of_blocks_ = n / 32 + 1 ∧ s.self.first_index_ = 0) ∧
    (∀ v c (s : State T), Deque_size_value h n v c = Res.ret s →
      s.self.number_of_blocks_ = n / 32 + 1 ∧ s.self.first_index_ = 0) ∧
    n < 32 * (n / 32 + 1) ∧
    (∀ x c j (s : State T), j < n → fill_loop x c j 0 (count_init h n) = Res.ret s →
      full_at_back s.self = false) ∧
    (∀ (v : T), ∃ s, Deque_size_value h n v copies = Res.ret s ∧
      s.self.number_of_blocks_ = n / 32 + 1 ∧ s.self.first_index_ = 0) ∧
    (∀ (dflt : T), ∃ s, Deque_size h n (fun _ => some dflt) copies = Res.ret s ∧
      s.self.number_of_blocks_ = n / 32 + 1 ∧ s.self.first_index_ = 0) := by
  have hcap := count_capacity n
  have key : ∀ x c (s : State T), fill_loop x c n 0 (count_init h n) = Res.ret s →
      s.self.number_of_blocks_ = n / 32 + 1 ∧ s.self.first_index_ = 0 := by
    intro x c s e
    obtain ⟨r1, r2, _⟩ := count_fill_no_growth h n x c n (Nat.le_refl n) s e
    exact ⟨r1, r2⟩
  have ex : ∀ (w : T), ∃ s, fill_loop (fun _ => some w) copies n 0 (count_init h n) = Res.ret s ∧
      s.self.number_of_blocks_ = n / 32 + 1 ∧ s.self.first_index_ = 0 := by
    intro w
    obtain ⟨s, e, _⟩ := fill_loop_copies (fun _ => some w) w (fun _ => rfl) n 0
      (count_init h n) (count_init_valid h n)
    exact ⟨s, e, key _ _ s e⟩
  refine ⟨fun t c s e => key t c s e, fun v c s e => key _ c s e, hcap, ?_, ex, ex⟩
  intro x c j s hj e
  obtain ⟨r1, r2, r3⟩ := count_fill_no_growth h n x c j (Nat.le_of_lt hj) s e
  cases hfb : full_at_back s.self with
  | false => rfl
  | true =>
    have := (full_at_back_iff _).1 hfb
    rw [r1, r2, r3] at this
    simp only [block_size_] at this hcap
    omega

set_option maxRecDepth 100000 in
/-- C20 at `Deque(40, 7)`: two blocks, `first_index_ == 0`, 40 elements. -/
theorem C20_count_constructors_no_growth_witness :
    ∃ s, Deque_size_value (Heap.empty Nat) 40 7 copies = Res.ret s ∧
      s.self.number_of_blocks_ = 2 ∧ s.self.first_index_ = 0 :=
  (C20_count_constructors_no_growth (Heap.empty Nat) 40).2.2.2.2.1 7

set_option maxRecDepth 100000 in
/-- C17, the code at a table that is full at the back: the deque `0, ..., 31` in one block has
its constructed slots equal to its window; after `insert(begin() + 1, 99)` the window is
`[32, 65)`, slot 32 of the window is raw and slot 1 outside the window holds `99`. -/
theorem C17_insert_full_at_back_live_eval :
    Valid (pushed_back 32) ∧ Live (pushed_back 32) ∧
    (insert (pushed_back 32) ((begin (pushed_back 32)).plus (CInt.ofNat 1 (by decide)))
      99).self.first_index_ = 32 ∧
    (insert (pushed_back 32) ((begin (pushed_back 32)).plus (CInt.ofNat 1 (by decide)))
      99).self.size_ = 33 ∧
    slot_read
      (insert (pushed_back 32) ((begin (pushed_back 32)).plus (CInt.ofNat 1 (by decide)))
        99).heap
      (insert (pushed_back 32) ((begin (pushed_back 32)).plus (CInt.ofNat 1 (by decide)))
        99).self.data_ 32 = none ∧
    slot_read
      (insert (pushed_back 32) ((begin (pushed_back 32)).plus (CInt.ofNat 1 (by decide)))
        99).heap
      (insert (pushed_back 32) ((begin (pushed_back 32)).plus (CInt.ofNat 1 (by decide)))
        99).self.data_ 1 = some 99 ∧
    ¬ Live (insert (pushed_back 32)
      ((begin (pushed_back 32)).plus (CInt.ofNat 1 (by decide))) 99) := by
  decide

/-- C21: for every bound `B` some number of repetitions of `push_back(v); pop_front();` on a
default-constructed deque returns with no pop on an empty deque, keeps `size()` at most `1`
before and after every call, and leaves `number_of_blocks_ > B`. -/
theorem C21_capacity_unbounded {T : Type} (h : Heap T) (v : T) (B : Nat) :
    ∃ m s, run_ops (Deque_default h) (alternating v m) = Res.ret s ∧
      no_pop_on_empty (Deque_default h) (alternating v m) = true ∧
      size_at_most 1 (Deque_default h) (alternating v m) = true ∧
      B < s.self.number_of_blocks_ := by
  have hz : (Deque_default h).self.size_ = 0 := rfl
  obtain ⟨m, _, _, c3⟩ := cycles_power v B (Deque_default h) hz (Deque_default_valid h).layout
  obtain ⟨r1, r2, r3⟩ := alternating_run v m (Deque_default h) hz
  refine ⟨m, _, r1, r2, r3, ?_⟩
  rw [c3]
  have e : (Deque_default h).self.number_of_blocks_ = 1 := rfl
  rw [e, Nat.mul_one]
  exact lt_three_pow B


end DequeModel
